import Mathlib

/-!
# plugdata console pipeline

Shallow embedding of `pd::Instance::ConsoleHandler` (Source/Pd/Instance.h: the timer
callback, the log functions, `processPrint`), of `Console::ConsoleComponent::clear`,
`restore` and `calculateRepeatOffset` (Source/Sidebar/Console.h), and of the registries
of weak references and of message listeners declared in Instance.h.

Modelling conventions
* `void*` is a natural number (an address, `0` for `nullptr`); it is only compared.
* `juce::String` is `String`; `int` is `Int`; the repeat counter of a record, which
  `numMessages++` raises over the whole life of the record, wraps around at 32 bits
  (`wrapInt`).
* `std::deque` is a `List`, front first: `emplace_back` appends, `pop_front` is `tail`.
* `moodycamel::ConcurrentQueue` is a FIFO `List` (one thread at a time).
* `StringUtils::getStringWidth` is defined outside these two headers; every definition
  that needs it takes it as the parameter `getStringWidth`.
* `juce::Timer` is the field `timer`: `none` when stopped, `some ms` when running.
* `instance->updateConsole (numMessages, newWarning)` is recorded in the trace
  `updateConsoleCalls`, oldest call first.
-/

namespace pd

/-- Native object identity, the `void*` of the source. -/
abbrev Ptr := Nat

/-- Conversion `int → bool` of C++ (non-zero is `true`). -/
def intToBool (i : Int) : Bool := i != 0

/-- Conversion `bool → int` of C++ (integral promotion). -/
def boolToInt (b : Bool) : Int := if b then 1 else 0

/-- Element of `pendingMessages`, a `std::tuple<void*, String, bool>`;
field names follow the structured binding `[object, message, type]`. -/
structure PendingItem where
  object : Ptr
  message : String
  type : Bool
deriving DecidableEq

/-- Element of `consoleMessages` and `consoleHistory`, a
`std::tuple<void*, String, int, int, int>`; field names follow the structured binding
`[lastObject, lastMessage, lastType, lastLength, numMessages]`. -/
structure ConsoleItem where
  object : Ptr
  message : String
  type : Int
  length : Int
  numMessages : Int
deriving DecidableEq

/-- State of `ConsoleHandler` together with the trace of `updateConsole` calls
made on the owning `Instance`. -/
structure ConsoleHandler where
  consoleMessages : List ConsoleItem
  consoleHistory : List ConsoleItem
  pendingMessages : List PendingItem
  timer : Option Nat
  updateConsoleCalls : List (Int × Bool)
deriving DecidableEq

/-- A freshly constructed handler: empty deques, empty queue, timer not running. -/
def ConsoleHandler.empty : ConsoleHandler :=
  { consoleMessages := [], consoleHistory := [], pendingMessages := [],
    timer := none, updateConsoleCalls := [] }

/-- The record built by
`emplace_back(object, message, type, fastStringWidth.getStringWidth(message) + 8, 1)`;
the `bool` of the queue item is converted to the `int` slot. -/
def newRecord (getStringWidth : String → Int) (item : PendingItem) : ConsoleItem :=
  { object := item.object, message := item.message, type := boolToInt item.type,
    length := getStringWidth item.message + 8, numMessages := 1 }

/-- The test `object == lastObject && message == lastMessage && type == lastType`;
in the last comparison the `bool` is promoted to `int`. -/
def sameAsLast (item : PendingItem) (last : ConsoleItem) : Bool :=
  decide (item.object = last.object) && decide (item.message = last.message)
    && decide (boolToInt item.type = last.type)

/-- Value that a C++ `int` holds after an arithmetic result of `i`: the result itself
inside the 32-bit range, and the two's complement wrap-around of the compiled code
outside of it (`2147483647 + 1` is `-2147483648`). -/
def wrapInt (i : Int) : Int := (i + 2147483648) % 4294967296 - 2147483648

/-- The part of the loop body of `timerCallback` that precedes the size test:
with a non-empty deque the item is compared with `consoleMessages.back()` and
either `numMessages++` (on the `int` of the tuple) or `emplace_back`; with an empty
deque `emplace_back`. -/
def appendOrCount (getStringWidth : String → Int) (consoleMessages : List ConsoleItem)
    (item : PendingItem) : List ConsoleItem :=
  match consoleMessages.getLast? with
  | some last =>
    if sameAsLast item last then
      consoleMessages.dropLast ++ [{ last with numMessages := wrapInt (last.numMessages + 1) }]
    else
      consoleMessages ++ [newRecord getStringWidth item]
  | none => consoleMessages ++ [newRecord getStringWidth item]

/-- One iteration of the loop of `timerCallback` on the deque: `appendOrCount`, then
`if (consoleMessages.size() > 800) consoleMessages.pop_front();`. -/
def processItem (getStringWidth : String → Int) (consoleMessages : List ConsoleItem)
    (item : PendingItem) : List ConsoleItem :=
  let appended := appendOrCount getStringWidth consoleMessages item
  if appended.length > 800 then appended.tail else appended

/-- Local variables of `timerCallback` that the loop updates, with the deque. -/
structure LoopState where
  consoleMessages : List ConsoleItem
  numReceived : Int
  newWarning : Bool
deriving DecidableEq

/-- The loop `while (pendingMessages.try_dequeue(item)) { ... }`: one iteration per
queued item, front first, until the queue is empty. -/
def timerLoop (getStringWidth : String → Int) : List PendingItem → LoopState → LoopState
  | [], st => st
  | item :: rest, st =>
    timerLoop getStringWidth rest
      { consoleMessages := processItem getStringWidth st.consoleMessages item,
        numReceived := st.numReceived + 1,
        newWarning := st.newWarning || item.type }

/-- Embedding of `ConsoleHandler::timerCallback`. -/
def timerCallback (getStringWidth : String → Int) (s : ConsoleHandler) : ConsoleHandler :=
  let st := timerLoop getStringWidth s.pendingMessages
    { consoleMessages := s.consoleMessages, numReceived := 0, newWarning := false }
  { s with
    consoleMessages := st.consoleMessages
    pendingMessages := []
    updateConsoleCalls :=
      if st.numReceived ≠ 0 then s.updateConsoleCalls ++ [(st.numReceived, st.newWarning)]
      else s.updateConsoleCalls
    timer := none }

/-- Embedding of `ConsoleHandler::logMessage`: `enqueue({ object, message, false })`,
`startTimer(10)`. -/
def logMessage (object : Ptr) (message : String) (s : ConsoleHandler) : ConsoleHandler :=
  { s with
    pendingMessages := s.pendingMessages ++ [{ object := object, message := message, type := false }]
    timer := some 10 }

/-- Embedding of `ConsoleHandler::logWarning`: `enqueue({ object, warning, 1 })`,
`startTimer(10)`; the `1` lands in the `bool` slot of the tuple. -/
def logWarning (object : Ptr) (warning : String) (s : ConsoleHandler) : ConsoleHandler :=
  { s with
    pendingMessages := s.pendingMessages ++ [{ object := object, message := warning, type := intToBool 1 }]
    timer := some 10 }

/-- Embedding of `ConsoleHandler::logError`: `enqueue({ object, error, 2 })`,
`startTimer(10)`; the `2` lands in the `bool` slot of the tuple. -/
def logError (object : Ptr) (error : String) (s : ConsoleHandler) : ConsoleHandler :=
  { s with
    pendingMessages := s.pendingMessages ++ [{ object := object, message := error, type := intToBool 2 }]
    timer := some 10 }

/-- Embedding of `ConsoleComponent::clear` on the two deques reached through
`pd->getConsoleHistory()` and `pd->getConsoleMessages()`:
`history.insert(history.end(), messages.begin(), messages.end()); messages.clear();`.
The trailing `update()` touches only the component list, the size and the viewport. -/
def clear (s : ConsoleHandler) : ConsoleHandler :=
  { s with
    consoleHistory := s.consoleHistory ++ s.consoleMessages
    consoleMessages := [] }

/-- Embedding of `ConsoleComponent::restore`:
`messages.insert(messages.begin(), history.begin(), history.end()); history.clear();`.
The trailing `update()` touches only the component list, the size and the viewport. -/
def restore (s : ConsoleHandler) : ConsoleHandler :=
  { s with
    consoleMessages := s.consoleHistory ++ s.consoleMessages
    consoleHistory := [] }

/-- The three severities with which a message can be submitted, one per log function. -/
inductive Severity
  | info
  | warning
  | error
deriving DecidableEq

/-- Submission of `(object, message)` with a severity: the call of the log function
of that severity. -/
def submit (sev : Severity) (object : Ptr) (message : String) (s : ConsoleHandler) :
    ConsoleHandler :=
  match sev with
  | .info => logMessage object message s
  | .warning => logWarning object message s
  | .error => logError object message s

/-- The calls that drive the console. -/
inductive Call
  | submit (sev : Severity) (object : Ptr) (message : String)
  | timerCallback
  | clear
  | restore
deriving DecidableEq

/-- Effect of one call. -/
def step (getStringWidth : String → Int) (s : ConsoleHandler) : Call → ConsoleHandler
  | .submit sev object message => submit sev object message s
  | .timerCallback => timerCallback getStringWidth s
  | .clear => clear s
  | .restore => restore s

/-- Effect of a sequence of calls, first call first. -/
def run (getStringWidth : String → Int) (calls : List Call) (s : ConsoleHandler) :
    ConsoleHandler :=
  calls.foldl (step getStringWidth) s

/-- The queue item that a submission enqueues. -/
def queued (sev : Severity) (object : Ptr) (message : String) : PendingItem :=
  match sev with
  | .info => { object := object, message := message, type := false }
  | .warning => { object := object, message := message, type := intToBool 1 }
  | .error => { object := object, message := message, type := intToBool 2 }

/-- The queue items enqueued by a sequence of calls, in order. -/
def submitted : List Call → List PendingItem
  | [] => []
  | .submit sev object message :: rest => queued sev object message :: submitted rest
  | _ :: rest => submitted rest

/-- A call that is a submission or a timer fire (neither `clear` nor `restore`). -/
def Call.isFeed : Call → Bool
  | .submit _ _ _ => true
  | .timerCallback => true
  | _ => false

/-- Number of `emplace_back` executions while the loop of `timerCallback` processes
the given items (ghost counter: it follows the branches of `appendOrCount`). -/
def numEmplaced (getStringWidth : String → Int) :
    List PendingItem → List ConsoleItem → Nat
  | [], _ => 0
  | item :: rest, consoleMessages =>
    (match consoleMessages.getLast? with
      | some last => if sameAsLast item last then 0 else 1
      | none => 1)
    + numEmplaced getStringWidth rest (processItem getStringWidth consoleMessages item)

/-- What the deque becomes once everything still queued has been processed. -/
def drained (getStringWidth : String → Int) (s : ConsoleHandler) : List ConsoleItem :=
  s.pendingMessages.foldl (processItem getStringWidth) s.consoleMessages

/-- A call other than a timer fire. -/
def Call.isNotFire (c : Call) : Bool := decide (c ≠ Call.timerCallback)

/-- Burst of 801 submissions of the text `"x"` from the null origin, alternately
through `logWarning` and `logError`: no two consecutive submissions are identical. -/
def warningErrorBurst : List Call :=
  (List.range 801).map fun i =>
    if i % 2 = 0 then Call.submit Severity.warning 0 "x" else Call.submit Severity.error 0 "x"

/-- Calls that fill the console with 800 records of 800 different origins, clear it,
log one more message and restore. -/
def fillClearRestore : List Call :=
  (List.range 800).map (fun i => Call.submit Severity.info i "x")
    ++ [Call.timerCallback, Call.clear, Call.submit Severity.info 0 "y", Call.timerCallback,
        Call.restore]

/-- Width function used in the concrete evaluations: the number of characters. -/
def charWidth (s : String) : Int := s.length

/-- State reached from the empty console by logging `"old"`, a fire, `clear()`,
logging `"new"` and a fire: one record in the history, one in the live sequence. -/
def withHistory : ConsoleHandler :=
  run charWidth
    [Call.submit Severity.info 0 "old", Call.timerCallback, Call.clear,
      Call.submit Severity.info 0 "new", Call.timerCallback]
    ConsoleHandler.empty

/-! ### processPrint

A C string is the list of its bytes before the terminating NUL, each byte a `Char`;
`strlen` is `List.length`. The array `printConcatBuffer` is represented by the C string
it holds. `String::fromUTF8`, `String::startsWith` and `String::substring` belong to
JUCE: `fromUTF8` is a parameter, the other two are modelled on the character list. -/

/-- `juce::String::startsWith`: the text begins with the given characters. -/
def startsWith (message : String) (start : String) : Bool :=
  start.data.isPrefixOf message.data

/-- `juce::String::substring (startIndex)`: the text from the character at `startIndex`
to the end (empty when the text is shorter). -/
def substring (message : String) (startIndex : Nat) : String :=
  String.mk (message.data.drop startIndex)

/-- Embedding of the lambda `forwardMessage` of `ConsoleHandler::processPrint`. -/
def forwardMessage (object : Ptr) (message : String) (s : ConsoleHandler) : ConsoleHandler :=
  if startsWith message "error" then
    logError object (substring message 7) s
  else if startsWith message "verbose(0):" || startsWith message "verbose(1):" then
    logError object (substring message 12) s
  else
    if startsWith message "verbose(" then
      logMessage object (substring message 12) s
    else
      logMessage object message s

/-- Assembly state of `processPrint` between two calls: the C string held by the member
array `printConcatBuffer[2048]` and the function-static `int length`. -/
structure PrintBuffer where
  printConcatBuffer : List Char
  length : Nat
deriving DecidableEq

/-- Variables of `processPrint` while the overflow loop runs; `forwarded` collects the
C strings handed to `forwardMessage`, first one first. -/
structure PrintLoop where
  printConcatBuffer : List Char
  length : Nat
  message : List Char
  len : Nat
  forwarded : List (List Char)
deriving DecidableEq

/-- The loop `while (length + len >= 2048) { ... }` of `processPrint`:
`d = 2048 - 1 - length; strncat(printConcatBuffer, message, d);` forward the buffer;
`message += d; len -= d; length = 0; printConcatBuffer[0] = 0`.
The subtractions are those of the natural numbers: with `length ≤ 2047`, which every
call of `processPrint` re-establishes, they are exact. -/
def overflowLoop (st : PrintLoop) : PrintLoop :=
  if _h : st.length + st.len ≥ 2048 then
    let d := 2048 - 1 - st.length
    let concatenated := st.printConcatBuffer ++ st.message.take d
    overflowLoop
      { printConcatBuffer := []
        length := 0
        message := st.message.drop d
        len := st.len - d
        forwarded := st.forwarded ++ [concatenated] }
  else st
termination_by st.length + st.len
decreasing_by
  show 0 + (st.len - (2048 - 1 - st.length)) < st.length + st.len
  omega

/-- The buffer handling of `processPrint (object, message)`: the new assembly state and
the C strings handed to `forwardMessage` during the call, in order.
`printConcatBuffer[length] = 0` cuts the held C string at `length`; after the loop
`strncat(printConcatBuffer, message, len); length += len;` and, when the last byte is
a line feed, that byte is overwritten by NUL, the buffer forwarded and `length = 0`. -/
def processPrintLines (p : PrintBuffer) (message : List Char) :
    PrintBuffer × List (List Char) :=
  let st := overflowLoop
    { printConcatBuffer := p.printConcatBuffer.take p.length
      length := p.length
      message := message
      len := message.length
      forwarded := [] }
  let concatenated := st.printConcatBuffer ++ st.message.take st.len
  let length := st.length + st.len
  if length > 0 ∧ concatenated.get? (length - 1) = some '\n' then
    ({ printConcatBuffer := concatenated.take (length - 1), length := 0 },
      st.forwarded ++ [concatenated.take (length - 1)])
  else
    ({ printConcatBuffer := concatenated, length := length }, st.forwarded)

/-- Successive calls of `processPrint` on a sequence of fragments: the final assembly
state and, for each call, the C strings it forwarded. -/
def processFragments (p : PrintBuffer) : List (List Char) → PrintBuffer × List (List (List Char))
  | [] => (p, [])
  | fragment :: rest =>
    let r := processPrintLines p fragment
    let t := processFragments r.1 rest
    (t.1, r.2 :: t.2)

/-- Embedding of `ConsoleComponent::calculateRepeatOffset`.
`static_cast<int>(std::log10(numRepeats))` is taken as the truncated exact logarithm,
`Nat.log 10`, for `numRepeats ≥ 1`; a negative argument has no defined result in the
source (`log10` has none) and is outside the model. -/
def calculateRepeatOffset (numRepeats : Int) : Int :=
  if numRepeats = 0 then 0
  else
    let digitCount : Int := (Nat.log 10 numRepeats.toNat : Int) + 1
    if digitCount ≤ 2 then 21 else 21 + ((digitCount - 2) * 10)

/-! ### Weak references -/

/-- Modelled from the spec: the registry behind `registerWeakReference`,
`unregisterWeakReference` and `clearWeakReferences`. Instance.h only declares the three
functions and the members `pdWeakReferences` and `weakReferenceMutex`; the bodies are
in Instance.cpp. `pdWeakReferences` maps an identity to its bucket of handles (`none`
when there is no bucket), `alive` is the flag of each handle. -/
structure WeakReferenceRegistry where
  pdWeakReferences : Ptr → Option (List Nat)
  alive : Nat → Bool

/-- Modelled from the spec: a registry of the missing Instance.cpp with no bucket and
every handle alive. -/
def WeakReferenceRegistry.empty : WeakReferenceRegistry :=
  { pdWeakReferences := fun _ => none, alive := fun _ => true }

/-- Modelled from the spec: the body of `registerWeakReference` (Instance.cpp), after
"`register(identity, handle)`: associates handle with identity". -/
def registerWeakReference (ptr : Ptr) (ref : Nat) (reg : WeakReferenceRegistry) :
    WeakReferenceRegistry :=
  { reg with
    pdWeakReferences := fun p =>
      if p = ptr then some ((reg.pdWeakReferences ptr).getD [] ++ [ref])
      else reg.pdWeakReferences p }

/-- Modelled from the spec: the body of `unregisterWeakReference` (Instance.cpp), after
"`unregister(identity, handle)`: removes a specific handle; no-op if already removed",
and a silent no-op for an unknown identity. -/
def unregisterWeakReference (ptr : Ptr) (ref : Nat) (reg : WeakReferenceRegistry) :
    WeakReferenceRegistry :=
  match reg.pdWeakReferences ptr with
  | none => reg
  | some refs =>
    { reg with
      pdWeakReferences := fun p =>
        if p = ptr then some (refs.erase ref) else reg.pdWeakReferences p }

/-- Modelled from the spec: the body of `clearWeakReferences` (Instance.cpp), after
"`invalidateAll(identity)`: marks every currently-registered handle for that identity as
dead and removes the identity's bucket" and "calling any operation with an unknown
identity is a silent no-op". -/
def clearWeakReferences (ptr : Ptr) (reg : WeakReferenceRegistry) : WeakReferenceRegistry :=
  match reg.pdWeakReferences ptr with
  | none => reg
  | some refs =>
    { pdWeakReferences := fun p => if p = ptr then none else reg.pdWeakReferences p
      alive := fun r => if r ∈ refs then false else reg.alive r }

/-! ### Ghost observers of processPrint and of the console -/

/-- The submissions that a record stands for: `numMessages` copies of its
`(object, message, type)`. -/
def repeats (r : ConsoleItem) : List (Ptr × String × Int) :=
  List.replicate r.numMessages.toNat (r.object, r.message, r.type)

/-- A sequence of records with every record replaced by its `repeats`. -/
def expand (records : List ConsoleItem) : List (Ptr × String × Int) :=
  (records.map repeats).flatten

/-- The `(object, message, type)` of a record. -/
def recordKey (r : ConsoleItem) : Ptr × String × Int :=
  (r.object, r.message, r.type)

/-- The `(object, message, type)` under which a queue item is stored. -/
def storedKey (item : PendingItem) : Ptr × String × Int :=
  (item.object, item.message, boolToInt item.type)

/-! ### Message listeners -/

end pd

namespace pd

/-! ### The loop of `timerCallback` as a fold -/

theorem timerLoop_consoleMessages (w : String → Int) (p : List PendingItem) (st : LoopState) :
    (timerLoop w p st).consoleMessages = p.foldl (processItem w) st.consoleMessages := by
  induction p generalizing st with
  | nil => rfl
  | cons x rest ih => simp [timerLoop, ih]

theorem timerCallback_consoleMessages (w : String → Int) (s : ConsoleHandler) :
    (timerCallback w s).consoleMessages = drained w s := by
  simp [timerCallback, drained, timerLoop_consoleMessages]

theorem drained_submit (w : String → Int) (sev : Severity) (o : Ptr) (m : String)
    (s : ConsoleHandler) :
    drained w (submit sev o m s) = processItem w (drained w s) (queued sev o m) := by
  cases sev <;> simp [drained, submit, queued, logMessage, logWarning, logError, List.foldl_append]

theorem drained_timerCallback (w : String → Int) (s : ConsoleHandler) :
    drained w (timerCallback w s) = drained w s := by
  simp [timerCallback, drained, timerLoop_consoleMessages]

theorem run_append (w : String → Int) (a b : List Call) (s : ConsoleHandler) :
    run w (a ++ b) s = run w b (run w a s) := by
  simp [run, List.foldl_append]

/-- Timer fires are transparent: after any interleaving of submissions and fires, the
deque that a final fire leaves is the fold of the loop body over all submitted items. -/
theorem drained_run (w : String → Int) (cs : List Call) (hfeed : ∀ c ∈ cs, c.isFeed = true)
    (s : ConsoleHandler) :
    drained w (run w cs s) = (submitted cs).foldl (processItem w) (drained w s) := by
  induction cs generalizing s with
  | nil => rfl
  | cons c rest ih =>
    have hrest : ∀ c ∈ rest, c.isFeed = true := fun c hc => hfeed c (List.mem_cons_of_mem _ hc)
    have hc := hfeed c (List.mem_cons_self _ _)
    cases c with
    | submit sev o m =>
      simp only [run, List.foldl_cons, step, submitted]
      have := ih hrest (submit sev o m s)
      simp only [run] at this
      rw [this, drained_submit]
    | timerCallback =>
      simp only [run, List.foldl_cons, step, submitted]
      have := ih hrest (timerCallback w s)
      simp only [run] at this
      rw [this, drained_timerCallback]
    | clear => simp [Call.isFeed] at hc
    | restore => simp [Call.isFeed] at hc

theorem run_then_fire (w : String → Int) (cs : List Call) (hfeed : ∀ c ∈ cs, c.isFeed = true) :
    (run w (cs ++ [Call.timerCallback]) ConsoleHandler.empty).consoleMessages
      = (submitted cs).foldl (processItem w) [] := by
  rw [run_append]
  simp only [run, List.foldl_cons, List.foldl_nil, step]
  rw [timerCallback_consoleMessages]
  have := drained_run w cs hfeed ConsoleHandler.empty
  simp only [run] at this
  rw [this]
  rfl

/-! ### The loop body on a deque with a known last record -/

theorem appendOrCount_nil (w : String → Int) (item : PendingItem) :
    appendOrCount w [] item = [newRecord w item] := rfl

theorem appendOrCount_snoc (w : String → Int) (init : List ConsoleItem) (r : ConsoleItem)
    (item : PendingItem) :
    appendOrCount w (init ++ [r]) item =
      if sameAsLast item r then init ++ [{ r with numMessages := wrapInt (r.numMessages + 1) }]
      else init ++ [r] ++ [newRecord w item] := by
  simp [appendOrCount, List.getLast?_append, List.dropLast_append_of_ne_nil]

theorem wrapInt_of_range (i : Int) (hlo : -2147483648 ≤ i) (hhi : i ≤ 2147483647) :
    wrapInt i = i := by
  unfold wrapInt
  omega

theorem wrapInt_add (i j : Int) : wrapInt (wrapInt i + j) = wrapInt (i + j) := by
  unfold wrapInt
  omega

theorem wrapInt_wrapInt (i : Int) : wrapInt (wrapInt i) = wrapInt i := by
  unfold wrapInt
  omega

theorem sameAsLast_newRecord (w : String → Int) (x y : PendingItem) :
    sameAsLast x (newRecord w y) = decide (x = y) := by
  cases x with
  | mk xo xm xt =>
  cases y with
  | mk yo ym yt =>
  cases xt <;> cases yt <;> simp [sameAsLast, newRecord, boolToInt]

/-- Repeats of the item of the last record only raise its counter (an `int`, which
wraps around), as long as the deque holds at most 800 records. -/
theorem foldl_same (w : String → Int) (item : PendingItem) (p : List PendingItem)
    (hp : ∀ x ∈ p, x = item) (init : List ConsoleItem) (r : ConsoleItem)
    (hr : sameAsLast item r = true) (hrange : wrapInt r.numMessages = r.numMessages)
    (hlen : (init ++ [r]).length ≤ 800) :
    p.foldl (processItem w) (init ++ [r])
      = init ++ [{ r with numMessages := wrapInt (r.numMessages + (p.length : Int)) }] := by
  induction p generalizing r with
  | nil => simp [hrange]
  | cons x rest ih =>
    have hx : x = item := hp x (List.mem_cons_self _ _)
    have hrest : ∀ y ∈ rest, y = item := fun y hy => hp y (List.mem_cons_of_mem _ hy)
    subst hx
    have h1 : processItem w (init ++ [r]) x
        = init ++ [{ r with numMessages := wrapInt (r.numMessages + 1) }] := by
      have hlen2 : ¬ (init.length + 1 > 800) := by simpa using hlen
      simp [processItem, appendOrCount_snoc, hr, hlen2]
    rw [List.foldl_cons, h1, ih hrest]
    · have e : r.numMessages + 1 + (rest.length : Int)
          = r.numMessages + ((rest.length + 1 : Nat) : Int) := by push_cast; ring
      simp only [wrapInt_add, List.length_cons, e]
    · simpa [sameAsLast] using hr
    · exact wrapInt_wrapInt _
    · simpa using hlen

/-- Processing a non-empty run of one and the same item on the empty deque leaves one
record whose counter is the length of the run, wrapped to an `int`. -/
theorem foldl_same_nil (w : String → Int) (item : PendingItem) (p : List PendingItem)
    (hp : ∀ x ∈ p, x = item) (hne : p ≠ []) :
    p.foldl (processItem w) []
      = [{ newRecord w item with numMessages := wrapInt (p.length : Int) }] := by
  cases p with
  | nil => exact absurd rfl hne
  | cons x rest =>
    have hx : x = item := hp x (List.mem_cons_self _ _)
    have hrest : ∀ y ∈ rest, y = item := fun y hy => hp y (List.mem_cons_of_mem _ hy)
    subst hx
    have h1 : processItem w [] x = [] ++ [newRecord w x] := by
      simp [processItem, appendOrCount_nil]
    rw [List.foldl_cons, h1, foldl_same w x rest hrest [] (newRecord w x)
      (by simp [sameAsLast_newRecord]) (by simp [newRecord, wrapInt]) (by simp)]
    have e : (1 : Int) + (rest.length : Int) = ((rest.length + 1 : Nat) : Int) := by
      push_cast; ring
    simp only [newRecord, List.nil_append, List.length_cons, e]

/-- A deque whose last record differs from the item gets one more record, whose counter
is the length of the run of that item, wrapped to an `int`. -/
theorem foldl_other (w : String → Int) (item : PendingItem) (p : List PendingItem)
    (hp : ∀ x ∈ p, x = item) (hne : p ≠ []) (init : List ConsoleItem) (r : ConsoleItem)
    (hr : sameAsLast item r = false) (hlen : (init ++ [r]).length + 1 ≤ 800) :
    p.foldl (processItem w) (init ++ [r])
      = init ++ [r] ++ [{ newRecord w item with numMessages := wrapInt (p.length : Int) }] := by
  cases p with
  | nil => exact absurd rfl hne
  | cons x rest =>
    have hx : x = item := hp x (List.mem_cons_self _ _)
    have hrest : ∀ y ∈ rest, y = item := fun y hy => hp y (List.mem_cons_of_mem _ hy)
    subst hx
    have hlen2 : ¬ (init.length + 1 + 1 > 800) := by simpa using hlen
    have h1 : processItem w (init ++ [r]) x = (init ++ [r]) ++ [newRecord w x] := by
      simp [processItem, appendOrCount_snoc, hr, hlen2]
    rw [List.foldl_cons, h1, foldl_same w x rest hrest (init ++ [r]) (newRecord w x)
      (by simp [sameAsLast_newRecord]) (by simp [newRecord, wrapInt]) (by simpa using hlen)]
    have e : (1 : Int) + (rest.length : Int) = ((rest.length + 1 : Nat) : Int) := by
      push_cast; ring
    simp only [newRecord, List.length_cons, e]

/-! ### Submitted items of a call sequence -/

theorem submitted_append (a b : List Call) : submitted (a ++ b) = submitted a ++ submitted b := by
  induction a with
  | nil => rfl
  | cons c rest ih => cases c <;> simp [submitted, ih]

theorem submitted_replicate (n : Nat) (sev : Severity) (o : Ptr) (m : String) :
    submitted (List.replicate n (Call.submit sev o m)) = List.replicate n (queued sev o m) := by
  induction n with
  | zero => rfl
  | succ n ih => simp [List.replicate_succ, submitted, ih]

theorem submitted_filter (cs : List Call) :
    submitted (cs.filter Call.isNotFire) = submitted cs := by
  induction cs with
  | nil => rfl
  | cons c rest ih => cases c <;> simp [List.filter, Call.isNotFire, submitted, ih]

theorem isFeed_of_filter (cs : List Call)
    (h : ∀ c ∈ cs.filter Call.isNotFire, c.isFeed = true) : ∀ c ∈ cs, c.isFeed = true := by
  intro c hc
  by_cases hf : c = Call.timerCallback
  · subst hf; rfl
  · exact h c (List.mem_filter.mpr ⟨hc, by simp [Call.isNotFire, hf]⟩)

/-- The deque after a final fire, for calls whose non-fire part is known. -/
theorem run_of_filter (w : String → Int) (cs subs : List Call)
    (hsubs : cs.filter Call.isNotFire = subs)
    (hfeed : ∀ c ∈ subs, c.isFeed = true) :
    (run w (cs ++ [Call.timerCallback]) ConsoleHandler.empty).consoleMessages
      = (submitted subs).foldl (processItem w) [] := by
  rw [run_then_fire w cs (isFeed_of_filter cs (by rw [hsubs]; exact hfeed)),
    ← submitted_filter, hsubs]

theorem queued_ne_of_message_ne (sev : Severity) (o : Ptr) (a b : String) (hab : a ≠ b) :
    queued sev o b ≠ queued sev o a := by
  cases sev <;> simp [queued, hab, Ne.symm hab]

/-! ### Retention: first in, first out -/

theorem processItem_of_ne (w : String → Int) (D : List ConsoleItem) (r : ConsoleItem)
    (x : PendingItem) (hlast : D.getLast? = some r) (hr : sameAsLast x r = false) :
    processItem w D x
      = if (D ++ [newRecord w x]).length > 800 then (D ++ [newRecord w x]).tail
        else D ++ [newRecord w x] := by
  simp [processItem, appendOrCount, hlast, hr]

theorem keep_last_800 {α : Type} (L : List α) (x : α) :
    (if (L.drop (L.length - 800) ++ [x]).length > 800
      then (L.drop (L.length - 800) ++ [x]).tail
      else L.drop (L.length - 800) ++ [x])
      = (L ++ [x]).drop ((L ++ [x]).length - 800) := by
  by_cases h : L.length < 800
  · have h1 : L.length - 800 = 0 := by omega
    have h2 : L.length + 1 - 800 = 0 := by omega
    have h3 : ¬ (L.length + 1 > 800) := by omega
    simp [h1, h2, h3]
  · have h3 : L.length - (L.length - 800) + 1 > 800 := by omega
    have h4 : L.length + 1 - 800 = (L.length - 800) + 1 := by omega
    have h5 : L.length - 800 ≤ L.length := by omega
    simp only [List.length_append, List.length_drop, List.length_singleton, h3, if_true, h4]
    rw [← List.drop_append_of_le_length h5, List.tail_drop]

/-- Strict FIFO retention on the queue items: when no two consecutive queue items are
equal, the deque after processing is the list of their records cut to the last 800. -/
theorem foldl_fifo (w : String → Int) (p : List PendingItem)
    (hp : List.Chain' (fun a b => a ≠ b) p) :
    p.foldl (processItem w) [] = (p.map (newRecord w)).drop (p.length - 800) := by
  induction p using List.reverseRecOn with
  | nil => rfl
  | append_singleton q x ih =>
    have hq : List.Chain' (fun a b => a ≠ b) q := (List.chain'_append.mp hp).1
    rw [List.foldl_append, ih hq]
    simp only [List.foldl_cons, List.foldl_nil]
    rcases List.eq_nil_or_concat q with hnil | ⟨q', y, hqy⟩
    · subst hnil
      simp [processItem, appendOrCount_nil]
    · rw [List.concat_eq_append] at hqy
      subst hqy
      have hyx : y ≠ x := by
        have := (List.chain'_append.mp hp).2.2
        exact this y (by simp) x (by simp)
      have hlast : ((List.map (newRecord w) (q' ++ [y])).drop ((q' ++ [y]).length - 800)).getLast?
          = some (newRecord w y) := by
        rw [List.getLast?_drop]
        have : ¬ ((List.map (newRecord w) (q' ++ [y])).length ≤ (q' ++ [y]).length - 800) := by
          simp; omega
        rw [if_neg this]
        simp
      rw [processItem_of_ne w _ _ x hlast
        (by rw [sameAsLast_newRecord]; simpa using Ne.symm hyx)]
      have := keep_last_800 (List.map (newRecord w) (q' ++ [y])) (newRecord w x)
      simp only [List.length_map] at this
      rw [this]
      simp

/-! ### Coalescing of consecutive duplicates -/

theorem replicate_ne_nil_of_pos {α : Type} (n : Nat) (hn : 1 ≤ n) (x : α) :
    List.replicate n x ≠ [] := by
  intro h
  have := congrArg List.length h
  rw [List.length_replicate, List.length_nil] at this
  omega

theorem filter_replicate_submit (n : Nat) (sev : Severity) (o : Ptr) (m : String) :
    (List.replicate n (Call.submit sev o m)).filter Call.isNotFire
      = List.replicate n (Call.submit sev o m) := by
  rw [List.filter_eq_self]
  intro c hc
  rw [List.eq_of_mem_replicate hc]
  rfl

theorem isFeed_replicate (n : Nat) (sev : Severity) (o : Ptr) (t : String) :
    ∀ c ∈ List.replicate n (Call.submit sev o t), c.isFeed = true := by
  intro c hc
  rw [List.eq_of_mem_replicate hc]; rfl

/-- The record left by `N ≥ 1` identical submissions, with the counter as the `int`
holds it. -/
theorem identical_submissions_count (w : String → Int) (sev : Severity) (o : Ptr)
    (m : String) (N : Nat) (hN : 1 ≤ N) (cs : List Call)
    (hcs : cs.filter Call.isNotFire = List.replicate N (Call.submit sev o m)) :
    (run w (cs ++ [Call.timerCallback]) ConsoleHandler.empty).consoleMessages
      = [{ newRecord w (queued sev o m) with numMessages := wrapInt (N : Int) }] := by
  rw [run_of_filter w cs _ hcs (isFeed_replicate N sev o m), submitted_replicate,
    foldl_same_nil w (queued sev o m) _ (fun x hx => List.eq_of_mem_replicate hx)
      (replicate_ne_nil_of_pos N hN _), List.length_replicate]

/-- C1 (counterexample): 2147483648 identical submissions to the empty console leave one
record whose repeat count is `-2147483648`, not 2147483648: the counter is an `int`. -/
theorem identical_submissions_counter_wraps :
    (run charWidth
        (List.replicate 2147483648 (Call.submit Severity.info 0 "a") ++ [Call.timerCallback])
        ConsoleHandler.empty).consoleMessages
      = [{ object := 0, message := "a", type := 0, length := 9,
           numMessages := -2147483648 }] := by
  have h := identical_submissions_count charWidth Severity.info 0 "a" 2147483648 (by decide)
    (List.replicate 2147483648 (Call.submit Severity.info 0 "a"))
    (filter_replicate_submit 2147483648 Severity.info 0 "a")
  have hrec : ({ newRecord charWidth (queued Severity.info 0 "a") with
      numMessages := wrapInt ((2147483648 : Nat) : Int) } : ConsoleItem)
      = { object := 0, message := "a", type := 0, length := 9,
          numMessages := -2147483648 } := by
    decide
  rw [h, hrec]

/-- C1 (amended): starting from the empty console, any interleaving of timer fires with
`N` submissions of one and the same `(origin, text, severity)`, `1 ≤ N ≤ 2147483647`,
closed by a fire, leaves exactly one record in `consoleMessages`, and its repeat count
is `N`. -/
theorem identical_submissions_one_record (w : String → Int) (sev : Severity) (o : Ptr)
    (m : String) (N : Nat) (hN : 1 ≤ N) (hmax : N ≤ 2147483647) (cs : List Call)
    (hcs : cs.filter Call.isNotFire = List.replicate N (Call.submit sev o m)) :
    (run w (cs ++ [Call.timerCallback]) ConsoleHandler.empty).consoleMessages
      = [{ newRecord w (queued sev o m) with numMessages := (N : Int) }] := by
  rw [identical_submissions_count w sev o m N hN cs hcs,
    wrapInt_of_range (N : Int) (by omega) (by omega)]

theorem identical_submissions_one_record_witness :
    (run charWidth
        ([Call.submit Severity.error 7 "boom", Call.timerCallback,
          Call.submit Severity.error 7 "boom", Call.submit Severity.error 7 "boom"]
          ++ [Call.timerCallback]) ConsoleHandler.empty).consoleMessages
      = [{ newRecord charWidth (queued Severity.error 7 "boom") with
            numMessages := ((3 : Nat) : Int) }] :=
  identical_submissions_one_record charWidth Severity.error 7 "boom" 3 (by decide)
    (by decide)
    [Call.submit Severity.error 7 "boom", Call.timerCallback,
      Call.submit Severity.error 7 "boom", Call.submit Severity.error 7 "boom"] (by decide)

/-- The records left by `k` copies of `a` followed by `m` copies of `b`, with the
counters as the `int` holds them. -/
theorem two_runs_fold (w : String → Int) (sev : Severity) (o : Ptr) (a b : String)
    (hab : a ≠ b) (k m : Nat) (hk : 1 ≤ k) (hm : 1 ≤ m) :
    (List.replicate k (queued sev o a) ++ List.replicate m (queued sev o b)).foldl
        (processItem w) []
      = [{ newRecord w (queued sev o a) with numMessages := wrapInt (k : Int) },
         { newRecord w (queued sev o b) with numMessages := wrapInt (m : Int) }] := by
  have hba : sameAsLast (queued sev o b)
      { newRecord w (queued sev o a) with numMessages := wrapInt (k : Int) } = false := by
    cases sev <;> simp [sameAsLast, newRecord, queued, Ne.symm hab]
  rw [List.foldl_append, foldl_same_nil w (queued sev o a) _
    (fun x hx => List.eq_of_mem_replicate hx) (replicate_ne_nil_of_pos k hk _),
    List.length_replicate]
  have := foldl_other w (queued sev o b) (List.replicate m (queued sev o b))
    (fun x hx => List.eq_of_mem_replicate hx) (replicate_ne_nil_of_pos m hm _) []
    { newRecord w (queued sev o a) with numMessages := wrapInt (k : Int) }
    hba (by simp)
  rw [List.length_replicate] at this
  exact this

theorem two_runs_count (w : String → Int) (sev : Severity) (o : Ptr) (a b : String)
    (hab : a ≠ b) (k m : Nat) (hk : 1 ≤ k) (hm : 1 ≤ m) (cs : List Call)
    (hcs : cs.filter Call.isNotFire
      = List.replicate k (Call.submit sev o a) ++ List.replicate m (Call.submit sev o b)) :
    (run w (cs ++ [Call.timerCallback]) ConsoleHandler.empty).consoleMessages
      = [{ newRecord w (queued sev o a) with numMessages := wrapInt (k : Int) },
         { newRecord w (queued sev o b) with numMessages := wrapInt (m : Int) }] := by
  rw [run_of_filter w cs _ hcs (by
    intro c hc
    rcases List.mem_append.mp hc with h | h
    · exact isFeed_replicate _ _ _ _ c h
    · exact isFeed_replicate _ _ _ _ c h), submitted_append, submitted_replicate,
    submitted_replicate]
  exact two_runs_fold w sev o a b hab k m hk hm

theorem three_runs_count (w : String → Int) (sev : Severity) (o : Ptr) (a b : String)
    (hab : a ≠ b) (k m j : Nat) (hk : 1 ≤ k) (hm : 1 ≤ m) (hj : 1 ≤ j) (cs : List Call)
    (hcs : cs.filter Call.isNotFire
      = List.replicate k (Call.submit sev o a) ++ List.replicate m (Call.submit sev o b)
        ++ List.replicate j (Call.submit sev o a)) :
    (run w (cs ++ [Call.timerCallback]) ConsoleHandler.empty).consoleMessages
      = [{ newRecord w (queued sev o a) with numMessages := wrapInt (k : Int) },
         { newRecord w (queued sev o b) with numMessages := wrapInt (m : Int) },
         { newRecord w (queued sev o a) with numMessages := wrapInt (j : Int) }] := by
  have hab2 : sameAsLast (queued sev o a)
      { newRecord w (queued sev o b) with numMessages := wrapInt (m : Int) } = false := by
    cases sev <;> simp [sameAsLast, newRecord, queued, hab]
  rw [run_of_filter w cs _ hcs (by
    intro c hc
    rcases List.mem_append.mp hc with h | h
    · rcases List.mem_append.mp h with h | h
      · exact isFeed_replicate _ _ _ _ c h
      · exact isFeed_replicate _ _ _ _ c h
    · exact isFeed_replicate _ _ _ _ c h), submitted_append, submitted_append,
    submitted_replicate, submitted_replicate, submitted_replicate, List.foldl_append,
    two_runs_fold w sev o a b hab k m hk hm]
  have := foldl_other w (queued sev o a) (List.replicate j (queued sev o a))
    (fun x hx => List.eq_of_mem_replicate hx) (replicate_ne_nil_of_pos j hj _)
    [{ newRecord w (queued sev o a) with numMessages := wrapInt (k : Int) }]
    { newRecord w (queued sev o b) with numMessages := wrapInt (m : Int) }
    hab2 (by simp)
  rw [List.length_replicate] at this
  exact this

/-- C2 (counterexample): 2147483648 copies of `"a"` followed by one `"b"` leave the
records `("a", -2147483648)` and `("b", 1)`, not `("a", 2147483648)` and `("b", 1)`. -/
theorem long_run_counter_wraps :
    (run charWidth
        ((List.replicate 2147483648 (Call.submit Severity.info 0 "a")
            ++ List.replicate 1 (Call.submit Severity.info 0 "b")) ++ [Call.timerCallback])
        ConsoleHandler.empty).consoleMessages
      = [{ object := 0, message := "a", type := 0, length := 9, numMessages := -2147483648 },
         { object := 0, message := "b", type := 0, length := 9, numMessages := 1 }] := by
  have h := two_runs_count charWidth Severity.info 0 "a" "b" (by decide) 2147483648 1
    (by decide) (by decide)
    (List.replicate 2147483648 (Call.submit Severity.info 0 "a")
      ++ List.replicate 1 (Call.submit Severity.info 0 "b"))
    (by rw [List.filter_append, filter_replicate_submit, filter_replicate_submit])
  have hrec : ([{ newRecord charWidth (queued Severity.info 0 "a") with
        numMessages := wrapInt ((2147483648 : Nat) : Int) },
      { newRecord charWidth (queued Severity.info 0 "b") with
        numMessages := wrapInt ((1 : Nat) : Int) }] : List ConsoleItem)
      = [{ object := 0, message := "a", type := 0, length := 9, numMessages := -2147483648 },
         { object := 0, message := "b", type := 0, length := 9, numMessages := 1 }] := by
    decide
  rw [h, hrec]

/-- C2 (amended): a different record resets coalescing. For texts `a ≠ b` with the same
origin and severity and `k, m` in `1 .. 2147483647`, submitting `k` copies of `a` then
`m` copies of `b` to the empty console (timer fires anywhere in between) and flushing
yields exactly the records `[(a, k), (b, m)]`; `a, a, a, b` yields `[(a, 3), (b, 1)]`;
and `j` further copies of `a` after the `b`s, `j` in `1 .. 2147483647`, make a third
record `(a, j)` instead of raising the first one. -/
theorem different_record_resets_coalescing (w : String → Int) (sev : Severity) (o : Ptr)
    (a b : String) (hab : a ≠ b) :
    (∀ (k m : Nat) (cs : List Call), 1 ≤ k → k ≤ 2147483647 → 1 ≤ m → m ≤ 2147483647 →
      cs.filter Call.isNotFire
        = List.replicate k (Call.submit sev o a) ++ List.replicate m (Call.submit sev o b) →
      (run w (cs ++ [Call.timerCallback]) ConsoleHandler.empty).consoleMessages
        = [{ newRecord w (queued sev o a) with numMessages := (k : Int) },
           { newRecord w (queued sev o b) with numMessages := (m : Int) }])
    ∧ (run w [Call.submit sev o a, Call.submit sev o a, Call.submit sev o a,
          Call.submit sev o b, Call.timerCallback] ConsoleHandler.empty).consoleMessages
        = [{ newRecord w (queued sev o a) with numMessages := 3 },
           { newRecord w (queued sev o b) with numMessages := 1 }]
    ∧ (∀ (k m j : Nat) (cs : List Call), 1 ≤ k → k ≤ 2147483647 → 1 ≤ m →
      m ≤ 2147483647 → 1 ≤ j → j ≤ 2147483647 →
      cs.filter Call.isNotFire
        = List.replicate k (Call.submit sev o a) ++ List.replicate m (Call.submit sev o b)
          ++ List.replicate j (Call.submit sev o a) →
      (run w (cs ++ [Call.timerCallback]) ConsoleHandler.empty).consoleMessages
        = [{ newRecord w (queued sev o a) with numMessages := (k : Int) },
           { newRecord w (queued sev o b) with numMessages := (m : Int) },
           { newRecord w (queued sev o a) with numMessages := (j : Int) }]) := by
  refine ⟨?_, ?_, ?_⟩
  · intro k m cs hk hk2 hm hm2 hcs
    rw [two_runs_count w sev o a b hab k m hk hm cs hcs,
      wrapInt_of_range (k : Int) (by omega) (by omega),
      wrapInt_of_range (m : Int) (by omega) (by omega)]
  · have h := two_runs_count w sev o a b hab 3 1 (by decide) (by decide)
      [Call.submit sev o a, Call.submit sev o a, Call.submit sev o a, Call.submit sev o b]
      (by simp [List.filter, Call.isNotFire, List.replicate])
    simp only [List.cons_append, List.nil_append] at h
    rw [h]
    have e3 : wrapInt ((3 : Nat) : Int) = 3 := by decide
    have e1 : wrapInt ((1 : Nat) : Int) = 1 := by decide
    rw [e3, e1]
  · intro k m j cs hk hk2 hm hm2 hj hj2 hcs
    rw [three_runs_count w sev o a b hab k m j hk hm hj cs hcs,
      wrapInt_of_range (k : Int) (by omega) (by omega),
      wrapInt_of_range (m : Int) (by omega) (by omega),
      wrapInt_of_range (j : Int) (by omega) (by omega)]

theorem different_record_resets_coalescing_witness :
    ("a" : String) ≠ "b"
    ∧ (run charWidth
        ([Call.submit Severity.info 0 "a", Call.submit Severity.info 0 "a",
          Call.timerCallback, Call.submit Severity.info 0 "a",
          Call.submit Severity.info 0 "b"] ++ [Call.timerCallback])
        ConsoleHandler.empty).consoleMessages
      = [{ newRecord charWidth (queued Severity.info 0 "a") with numMessages := ((3 : Nat) : Int) },
         { newRecord charWidth (queued Severity.info 0 "b") with numMessages := ((1 : Nat) : Int) }]
    ∧ (run charWidth
        ([Call.submit Severity.info 0 "a", Call.submit Severity.info 0 "b",
          Call.submit Severity.info 0 "b", Call.submit Severity.info 0 "a"]
          ++ [Call.timerCallback])
        ConsoleHandler.empty).consoleMessages
      = [{ newRecord charWidth (queued Severity.info 0 "a") with numMessages := ((1 : Nat) : Int) },
         { newRecord charWidth (queued Severity.info 0 "b") with numMessages := ((2 : Nat) : Int) },
         { newRecord charWidth (queued Severity.info 0 "a") with numMessages := ((1 : Nat) : Int) }] :=
  ⟨by decide,
    (different_record_resets_coalescing charWidth Severity.info 0 "a" "b" (by decide)).1 3 1
      [Call.submit Severity.info 0 "a", Call.submit Severity.info 0 "a",
        Call.timerCallback, Call.submit Severity.info 0 "a", Call.submit Severity.info 0 "b"]
      (by decide) (by decide) (by decide) (by decide) (by decide),
    (different_record_resets_coalescing charWidth Severity.info 0 "a" "b" (by decide)).2.2 1 2 1
      [Call.submit Severity.info 0 "a", Call.submit Severity.info 0 "b",
        Call.submit Severity.info 0 "b", Call.submit Severity.info 0 "a"]
      (by decide) (by decide) (by decide) (by decide) (by decide) (by decide) (by decide)⟩

/-! ### Retention at the level of calls -/

/-- Strict FIFO retention at the level of calls: after submissions and fires closed by
a fire, when no two consecutive queue items are equal the live sequence consists of the
records of the last 800 submitted items, in submission order, each with repeat count 1. -/
theorem retention_fifo_of_distinct_queue_items (w : String → Int) (cs : List Call)
    (hfeed : ∀ c ∈ cs, c.isFeed = true)
    (hdist : List.Chain' (fun a b => a ≠ b) (submitted cs)) :
    (run w (cs ++ [Call.timerCallback]) ConsoleHandler.empty).consoleMessages
      = ((submitted cs).map (newRecord w)).drop ((submitted cs).length - 800) := by
  rw [run_then_fire w cs hfeed, foldl_fifo w _ hdist]

theorem submitted_of_all (item : PendingItem) (cs : List Call)
    (h : ∀ c ∈ cs, ∃ sev o m, c = Call.submit sev o m ∧ queued sev o m = item) :
    submitted cs = List.replicate cs.length item := by
  induction cs with
  | nil => rfl
  | cons c rest ih =>
    obtain ⟨sev, o, m, hc, hq⟩ := h c (List.mem_cons_self _ _)
    subst hc
    simp [submitted, hq, List.replicate_succ,
      ih (fun c hc => h c (List.mem_cons_of_mem _ hc))]

/-- C3: on the burst `warningErrorBurst` (801 submissions, no two consecutive ones
identical: the same text alternately as a warning and as an error) the code does not
retain the last 800 submissions: the whole burst is coalesced into one record with
repeat count 801, because both severities are the same `true` in the queue item. -/
theorem retention_burst_of_warnings_and_errors (w : String → Int) :
    warningErrorBurst.length = 801
    ∧ List.Chain' (fun a b => a ≠ b) warningErrorBurst
    ∧ (run w (warningErrorBurst ++ [Call.timerCallback]) ConsoleHandler.empty).consoleMessages
        = [{ object := 0, message := "x", type := 1, length := w "x" + 8, numMessages := 801 }] := by
  have hall : ∀ c ∈ warningErrorBurst,
      ∃ sev o m, c = Call.submit sev o m ∧ queued sev o m = ⟨0, "x", true⟩ := by
    intro c hc
    simp only [warningErrorBurst, List.mem_map] at hc
    obtain ⟨i, _, hi⟩ := hc
    by_cases h : i % 2 = 0
    · exact ⟨Severity.warning, 0, "x", by simp [h] at hi; exact hi.symm, rfl⟩
    · exact ⟨Severity.error, 0, "x", by simp [h] at hi; exact hi.symm, rfl⟩
  have hlen : warningErrorBurst.length = 801 := by simp [warningErrorBurst]
  refine ⟨hlen, ?_, ?_⟩
  · unfold warningErrorBurst
    rw [List.chain'_map, List.chain'_range_succ]
    intro m _
    by_cases h : m % 2 = 0
    · have h2 : ¬ ((m + 1) % 2 = 0) := by omega
      simp [h, h2]
    · have h2 : (m + 1) % 2 = 0 := by omega
      simp [h, h2]
  · rw [run_then_fire w _ (by
      intro c hc
      obtain ⟨sev, o, m, hc, _⟩ := hall c hc
      subst hc; rfl), submitted_of_all _ _ hall,
      foldl_same_nil w ⟨0, "x", true⟩ _ (fun x hx => List.eq_of_mem_replicate hx) (by
        intro h
        have h2 := congrArg List.length h
        rw [List.length_replicate, hlen] at h2
        exact absurd h2 (by decide)),
      List.length_replicate, hlen]
    simp [newRecord, boolToInt, wrapInt]

/-! ### clear and restore -/

/-- C4 (counterexample): in the reachable state `withHistory`, whose history is not
empty, `clear(); restore()` does not give back the live sequence: the old history is
put in front of it. -/
theorem clear_restore_not_lossless_with_history :
    withHistory.consoleMessages = [⟨0, "new", 0, 11, 1⟩]
    ∧ withHistory.consoleHistory = [⟨0, "old", 0, 11, 1⟩]
    ∧ (restore (clear withHistory)).consoleMessages
        = [⟨0, "old", 0, 11, 1⟩, ⟨0, "new", 0, 11, 1⟩]
    ∧ (restore (clear withHistory)).consoleMessages ≠ withHistory.consoleMessages := by
  decide

/-- C4 (amended): for every console state the live sequence after `clear(); restore()` is
the former history followed by the former live sequence, and the history is empty; it
is the live sequence as it was before `clear()` exactly when the history was empty. -/
theorem clear_restore_live (s : ConsoleHandler) :
    (restore (clear s)).consoleMessages = s.consoleHistory ++ s.consoleMessages
    ∧ (restore (clear s)).consoleHistory = []
    ∧ ((restore (clear s)).consoleMessages = s.consoleMessages ↔ s.consoleHistory = []) := by
  simp [restore, clear]

/-- C5 (counterexample): in the reachable state `withHistory`, `clear()` keeps the
history that existed before the call, so the history afterwards is not the former
live sequence. -/
theorem clear_keeps_old_history :
    withHistory.consoleMessages = [⟨0, "new", 0, 11, 1⟩]
    ∧ withHistory.consoleHistory = [⟨0, "old", 0, 11, 1⟩]
    ∧ (clear withHistory).consoleHistory = [⟨0, "old", 0, 11, 1⟩, ⟨0, "new", 0, 11, 1⟩]
    ∧ (clear withHistory).consoleHistory ≠ withHistory.consoleMessages := by
  decide

/-- C5 (amended): for every console state, after `clear()` the history sequence is the
former history followed by the live sequence that existed before the call, and the
live sequence is empty; queue, timer and notifications are untouched. -/
theorem clear_appends_to_history (s : ConsoleHandler) :
    (clear s).consoleHistory = s.consoleHistory ++ s.consoleMessages
    ∧ (clear s).consoleMessages = []
    ∧ (clear s).pendingMessages = s.pendingMessages
    ∧ (clear s).timer = s.timer
    ∧ (clear s).updateConsoleCalls = s.updateConsoleCalls := by
  simp [clear]

/-- C6: for every console state, after `restore()` the live sequence is the former
history followed by the former live sequence, and the history sequence is empty. -/
theorem restore_prepends_history (s : ConsoleHandler) :
    (restore s).consoleMessages = s.consoleHistory ++ s.consoleMessages
    ∧ (restore s).consoleHistory = [] := by
  simp [restore]

/-! ### The cap of 800 records -/

theorem appendOrCount_length_le (w : String → Int) (D : List ConsoleItem) (x : PendingItem) :
    (appendOrCount w D x).length ≤ D.length + 1 := by
  rcases List.eq_nil_or_concat D with hnil | ⟨init, r, hD⟩
  · subst hnil; simp [appendOrCount_nil]
  · rw [List.concat_eq_append] at hD
    subst hD
    rw [appendOrCount_snoc]
    split <;> simp

theorem processItem_length_le (w : String → Int) (D : List ConsoleItem) (x : PendingItem)
    (hD : D.length ≤ 800) : (processItem w D x).length ≤ 800 := by
  have h := appendOrCount_length_le w D x
  simp only [processItem]
  split
  · rw [List.length_tail]; omega
  · omega

theorem foldl_processItem_length_le (w : String → Int) (p : List PendingItem)
    (D : List ConsoleItem) (hD : D.length ≤ 800) :
    (p.foldl (processItem w) D).length ≤ 800 := by
  induction p generalizing D with
  | nil => simpa using hD
  | cons x rest ih => exact ih _ (processItem_length_le w D x hD)

theorem step_length_le (w : String → Int) (s : ConsoleHandler) (c : Call)
    (hc : c ≠ Call.restore) (hs : s.consoleMessages.length ≤ 800) :
    (step w s c).consoleMessages.length ≤ 800 := by
  cases c with
  | submit sev o m => cases sev <;> simpa [step, submit, logMessage, logWarning, logError] using hs
  | timerCallback =>
    simp only [step]
    rw [timerCallback_consoleMessages]
    exact foldl_processItem_length_le w _ _ hs
  | clear => simp [step, clear]
  | restore => exact absurd rfl hc

theorem run_history_of_feed (w : String → Int) (cs : List Call)
    (hfeed : ∀ c ∈ cs, c.isFeed = true) (s : ConsoleHandler) :
    (run w cs s).consoleHistory = s.consoleHistory := by
  induction cs generalizing s with
  | nil => rfl
  | cons c rest ih =>
    have hrest : ∀ c ∈ rest, c.isFeed = true := fun c hc => hfeed c (List.mem_cons_of_mem _ hc)
    have hc := hfeed c (List.mem_cons_self _ _)
    have h := ih hrest (step w s c)
    simp only [run, List.foldl_cons] at h ⊢
    rw [h]
    cases c with
    | submit sev o m => cases sev <;> simp [step, submit, logMessage, logWarning, logError]
    | timerCallback => simp [step, timerCallback]
    | clear => simp [Call.isFeed] at hc
    | restore => simp [Call.isFeed] at hc

theorem submitted_map_info (l : List Nat) (m : String) :
    submitted (l.map fun i => Call.submit Severity.info i m)
      = l.map fun i => ({ object := i, message := m, type := false } : PendingItem) := by
  induction l with
  | nil => rfl
  | cons a rest ih => simp [submitted, queued, ih]

theorem clear_log_fire_restore (w : String → Int) (s : ConsoleHandler)
    (hp : s.pendingMessages = []) (o : Ptr) (m : String) :
    (run w [Call.clear, Call.submit Severity.info o m, Call.timerCallback, Call.restore]
        s).consoleMessages
      = s.consoleHistory ++ s.consoleMessages ++ [newRecord w ⟨o, m, false⟩] := by
  simp [run, step, clear, submit, logMessage, timerCallback, restore, timerLoop, hp,
    processItem, appendOrCount]

/-- C7: the cap of 800 live records does not hold in the code. `timerCallback` keeps it
with one `pop_front()` per message and `update()` relies on it, but `restore()` puts the
whole history in front without a size test: filling the console with 800 records,
`clear()`, one more message, the timer and `restore()` leave 801 records in
`consoleMessages`. -/
theorem cap_exceeded_after_restore :
    (run charWidth fillClearRestore ConsoleHandler.empty).consoleMessages.length = 801 := by
  have hfeed : ∀ c ∈ (List.range 800).map (fun i => Call.submit Severity.info i "x"),
      c.isFeed = true := by
    intro c hc
    obtain ⟨i, _, hi⟩ := List.mem_map.mp hc
    subst hi; rfl
  have hsplit : fillClearRestore
      = ((List.range 800).map (fun i => Call.submit Severity.info i "x")
          ++ [Call.timerCallback])
        ++ [Call.clear, Call.submit Severity.info 0 "y", Call.timerCallback, Call.restore] := by
    simp [fillClearRestore]
  have hlive := run_then_fire charWidth _ hfeed
  have hhist := run_history_of_feed charWidth
    ((List.range 800).map (fun i => Call.submit Severity.info i "x") ++ [Call.timerCallback])
    (by
      intro c hc
      rcases List.mem_append.mp hc with h | h
      · exact hfeed c h
      · simp at h; subst h; rfl) ConsoleHandler.empty
  have hpend : (run charWidth
      ((List.range 800).map (fun i => Call.submit Severity.info i "x") ++ [Call.timerCallback])
      ConsoleHandler.empty).pendingMessages = [] := by
    rw [run_append]; rfl
  rw [hsplit, run_append, clear_log_fire_restore charWidth _ hpend, hhist, hlive,
    submitted_map_info, foldl_fifo]
  · simp [ConsoleHandler.empty]
  · rw [List.chain'_map, List.chain'_range_succ]
    intro m _
    simp

/-- The size test of `timerCallback` alone keeps the cap: in every state reachable from
the empty console by message submissions, `timerCallback` fires and `clear()`,
`consoleMessages` holds at most 800 records. -/
theorem cap_800_without_restore (w : String → Int) (cs : List Call)
    (hcs : ∀ c ∈ cs, c ≠ Call.restore) :
    (run w cs ConsoleHandler.empty).consoleMessages.length ≤ 800 := by
  have key : ∀ (cs : List Call) (s : ConsoleHandler), (∀ c ∈ cs, c ≠ Call.restore) →
      s.consoleMessages.length ≤ 800 → (run w cs s).consoleMessages.length ≤ 800 := by
    intro cs
    induction cs with
    | nil => intro s _ hs; exact hs
    | cons c rest ih =>
      intro s h hs
      exact ih (step w s c) (fun c hc => h c (List.mem_cons_of_mem _ hc))
        (step_length_le w s c (h c (List.mem_cons_self _ _)) hs)
  exact key cs ConsoleHandler.empty hcs (by simp [ConsoleHandler.empty])

theorem cap_800_without_restore_witness :
    (∀ c ∈ [Call.submit Severity.info 0 "a", Call.timerCallback, Call.clear,
        Call.submit Severity.error 3 "b", Call.timerCallback], c ≠ Call.restore)
    ∧ (run charWidth [Call.submit Severity.info 0 "a", Call.timerCallback, Call.clear,
        Call.submit Severity.error 3 "b", Call.timerCallback]
        ConsoleHandler.empty).consoleMessages.length ≤ 800 :=
  ⟨by decide, cap_800_without_restore charWidth _ (by decide)⟩

/-! ### The notification of the UI -/

end pd

namespace pd

/-! ### Severity of a record -/

/-- C11: a warning followed by an error with the same origin and text is coalesced by
the code into ONE record with repeat count 2 (the claim asks for two records with
repeat count 1): both submissions carry `true` in the `bool` slot of the queue item. -/
theorem warning_then_error_coalesced (w : String → Int) (o : Ptr) (m : String) :
    (run w [Call.submit Severity.warning o m, Call.submit Severity.error o m,
        Call.timerCallback] ConsoleHandler.empty).consoleMessages
      = [{ object := o, message := m, type := 1, length := w m + 8, numMessages := 2 }] := by
  simp [run, step, submit, logWarning, logError, timerCallback, timerLoop, processItem,
    appendOrCount, sameAsLast, newRecord, intToBool, boolToInt, ConsoleHandler.empty, wrapInt]

/-- C12: the record created from `logMessage` has type 0 and the one from `logWarning`
type 1, but the record created from `logError` has type 1 as well, not 2: the `2` is
converted to `true` when it is enqueued and to `1` when the record is built. -/
theorem error_record_has_warning_type (w : String → Int) (o : Ptr) (m : String) :
    (timerCallback w (logMessage o m ConsoleHandler.empty)).consoleMessages
      = [{ object := o, message := m, type := 0, length := w m + 8, numMessages := 1 }]
    ∧ (timerCallback w (logWarning o m ConsoleHandler.empty)).consoleMessages
      = [{ object := o, message := m, type := 1, length := w m + 8, numMessages := 1 }]
    ∧ (timerCallback w (logError o m ConsoleHandler.empty)).consoleMessages
      = [{ object := o, message := m, type := 1, length := w m + 8, numMessages := 1 }]
    ∧ (timerCallback w (logError o m ConsoleHandler.empty)).consoleMessages
      = (timerCallback w (logWarning o m ConsoleHandler.empty)).consoleMessages := by
  simp [logMessage, logWarning, logError, timerCallback, timerLoop, processItem,
    appendOrCount, newRecord, intToBool, boolToInt, ConsoleHandler.empty]

/-! ### Classification of a completed line -/

theorem startsWith_append (start rest : String) : startsWith (start ++ rest) start = true := by
  simp [startsWith]

theorem substring_append (start rest : String) :
    substring (start ++ rest) start.data.length = rest := by
  simp [substring]

/-- C15: classification by `forwardMessage`, for every text `X`: `"error: X"`,
`"verbose(0): X"` and `"verbose(1): X"` are submitted through `logError` with the text
`X`; `"verbose(N): X"` for a single digit `N ≥ 2` is submitted through `logMessage`
with the text `X`; a line that starts with neither `"error"` nor `"verbose("` is
submitted through `logMessage` unchanged. -/
theorem forwardMessage_classification (object : Ptr) (X : String) (s : ConsoleHandler) :
    forwardMessage object ("error: " ++ X) s = logError object X s
    ∧ forwardMessage object ("verbose(0): " ++ X) s = logError object X s
    ∧ forwardMessage object ("verbose(1): " ++ X) s = logError object X s
    ∧ (∀ N : Nat, 2 ≤ N → N ≤ 9 →
        forwardMessage object ("verbose(" ++ String.singleton (Nat.digitChar N) ++ "): " ++ X) s
          = logMessage object X s)
    ∧ (∀ line : String, startsWith line "error" = false → startsWith line "verbose(" = false →
        forwardMessage object line s = logMessage object line s) := by
  refine ⟨?_, ?_, ?_, ?_, ?_⟩
  · simp [forwardMessage, startsWith, substring]
  · simp [forwardMessage, startsWith, substring]
  · simp [forwardMessage, startsWith, substring]
  · intro N h2 h9
    interval_cases N <;> simp [forwardMessage, startsWith, substring, Nat.digitChar]
  · intro line he hv
    have h0 : startsWith line "verbose(0):" = false := by
      cases h : startsWith line "verbose(0):" with
      | false => rfl
      | true =>
        have hp : ("verbose(".data ++ "0):".data) <+: line.data := by
          simpa [startsWith] using h
        have : "verbose(".data <+: line.data := List.IsPrefix.trans (List.prefix_append _ _) hp
        have hb : "verbose(".data.isPrefixOf line.data = true :=
          List.isPrefixOf_iff_prefix.mpr this
        unfold startsWith at hv
        rw [hb] at hv
        cases hv
    have h1 : startsWith line "verbose(1):" = false := by
      cases h : startsWith line "verbose(1):" with
      | false => rfl
      | true =>
        have hp : ("verbose(".data ++ "1):".data) <+: line.data := by
          simpa [startsWith] using h
        have : "verbose(".data <+: line.data := List.IsPrefix.trans (List.prefix_append _ _) hp
        have hb : "verbose(".data.isPrefixOf line.data = true :=
          List.isPrefixOf_iff_prefix.mpr this
        unfold startsWith at hv
        rw [hb] at hv
        cases hv
    simp [forwardMessage, he, hv, h0, h1]

theorem forwardMessage_classification_witness :
    forwardMessage 4 ("verbose(" ++ String.singleton (Nat.digitChar 3) ++ "): " ++ "tick")
        ConsoleHandler.empty
      = logMessage 4 "tick" ConsoleHandler.empty
    ∧ startsWith "hello" "error" = false ∧ startsWith "hello" "verbose(" = false
    ∧ forwardMessage 4 "hello" ConsoleHandler.empty = logMessage 4 "hello" ConsoleHandler.empty :=
  ⟨(forwardMessage_classification 4 "tick" ConsoleHandler.empty).2.2.2.1 3 (by decide)
      (by decide),
    by decide, by decide,
    (forwardMessage_classification 4 "tick" ConsoleHandler.empty).2.2.2.2 "hello" (by decide)
      (by decide)⟩

/-! ### The repeat offset -/

theorem calculateRepeatOffset_pos (n : Nat) (hn : n ≠ 0) :
    calculateRepeatOffset (n : Int)
      = if Nat.log 10 n + 1 ≤ 2 then 21 else 21 + (((Nat.log 10 n + 1 : Nat) : Int) - 2) * 10 := by
  have h : ¬ ((n : Int) = 0) := by exact_mod_cast hn
  simp only [calculateRepeatOffset, h, if_false, Int.toNat_ofNat]
  by_cases h2 : Nat.log 10 n + 1 ≤ 2
  · have : ((Nat.log 10 n : Int) + 1 ≤ 2) := by exact_mod_cast h2
    simp [h2, this]
  · have : ¬ ((Nat.log 10 n : Int) + 1 ≤ 2) := by
      intro h3; exact h2 (by exact_mod_cast h3)
    simp [h2, this]

theorem calculateRepeatOffset_digits (n : Nat) :
    calculateRepeatOffset (n : Int)
      = (if n = 0 then 0
         else if (Nat.digits 10 n).length ≤ 2 then 21
         else 21 + 10 * (((Nat.digits 10 n).length : Int) - 2)) := by
  by_cases hn : n = 0
  · subst hn; simp [calculateRepeatOffset]
  · rw [calculateRepeatOffset_pos n hn, Nat.digits_len 10 n (by norm_num) hn]
    simp only [hn, if_false]
    split
    · rfl
    · push_cast; ring

/-- C16: `calculateRepeatOffset` is a function of the number of decimal digits of the
repeat number: 0 for 0, 21 for one or two digits, `21 + 10 * (d - 2)` for `d ≥ 3`
digits; `offset 0 = 0`, `offset 5 = 21`, `offset 100 = 31`. -/
theorem calculateRepeatOffset_by_digit_count (n : Nat) :
    calculateRepeatOffset (n : Int)
      = (if n = 0 then 0
         else if (Nat.digits 10 n).length ≤ 2 then 21
         else 21 + 10 * (((Nat.digits 10 n).length : Int) - 2))
    ∧ calculateRepeatOffset 0 = 0
    ∧ calculateRepeatOffset 5 = 21
    ∧ calculateRepeatOffset 100 = 31 :=
  ⟨calculateRepeatOffset_digits n, by simp [calculateRepeatOffset],
    by simp [calculateRepeatOffset, Nat.log], by simp [calculateRepeatOffset, Nat.log]⟩

/-- C17: `calculateRepeatOffset` is monotonically non-decreasing on the repeat numbers
`0 ≤ m ≤ n`, and two repeat numbers with the same number of decimal digits have the
same offset. -/
theorem calculateRepeatOffset_monotone (m n : Nat) :
    (m ≤ n → calculateRepeatOffset (m : Int) ≤ calculateRepeatOffset (n : Int))
    ∧ ((Nat.digits 10 m).length = (Nat.digits 10 n).length →
        calculateRepeatOffset (m : Int) = calculateRepeatOffset (n : Int)) := by
  constructor
  · intro hmn
    by_cases hm : m = 0
    · subst hm
      by_cases hn : n = 0
      · subst hn; exact le_refl _
      · rw [calculateRepeatOffset_pos n hn]
        simp only [calculateRepeatOffset, Nat.cast_zero, if_true]
        split
        · norm_num
        · push_cast; omega
    · have hn : n ≠ 0 := by omega
      have hlog := Nat.log_mono_right (b := 10) hmn
      rw [calculateRepeatOffset_pos m hm, calculateRepeatOffset_pos n hn]
      split <;> split <;> push_cast <;> omega
  · intro hd
    rw [calculateRepeatOffset_digits m, calculateRepeatOffset_digits n]
    by_cases hm : m = 0
    · subst hm
      have : n = 0 := by
        simp at hd
        exact (Nat.digits_eq_nil_iff_eq_zero.mp (List.length_eq_zero.mp hd.symm))
      subst this; rfl
    · have hn : n ≠ 0 := by
        intro h0; subst h0
        simp at hd
        exact hm (Nat.digits_eq_nil_iff_eq_zero.mp hd)
      simp [hm, hn, hd]

theorem calculateRepeatOffset_monotone_witness :
    (5 : Nat) ≤ 100
    ∧ calculateRepeatOffset ((5 : Nat) : Int) ≤ calculateRepeatOffset ((100 : Nat) : Int)
    ∧ (Nat.digits 10 10).length = (Nat.digits 10 99).length
    ∧ calculateRepeatOffset ((10 : Nat) : Int) = calculateRepeatOffset ((99 : Nat) : Int) :=
  ⟨by decide, (calculateRepeatOffset_monotone 5 100).1 (by decide), by norm_num,
    (calculateRepeatOffset_monotone 10 99).2 (by norm_num)⟩

/-! ### clear and restore, twice -/

/-- C18: for every console state, applying the pair `clear(); restore()` twice leaves
the same live sequence and the same history sequence (the same state) as applying it
once. -/
theorem clear_restore_idempotent (s : ConsoleHandler) :
    (restore (clear (restore (clear s)))).consoleMessages = (restore (clear s)).consoleMessages
    ∧ (restore (clear (restore (clear s)))).consoleHistory = (restore (clear s)).consoleHistory
    ∧ restore (clear (restore (clear s))) = restore (clear s) := by
  simp [restore, clear]

/-! ### Assembly of fragments in processPrint -/

theorem overflowLoop_of_lt (st : PrintLoop) (h : st.length + st.len < 2048) :
    overflowLoop st = st := by
  rw [overflowLoop]
  simp [Nat.not_le.mpr h]

theorem flush_test (L : List Char) :
    (L.length > 0 ∧ L.get? (L.length - 1) = some '\n') ↔ L.getLast? = some '\n' := by
  rw [List.getLast?_eq_getElem?, List.get?_eq_getElem?]
  constructor
  · exact And.right
  · intro h
    refine ⟨?_, h⟩
    cases L with
    | nil => simp at h
    | cons a t => simp

/-- With `length = 0` the content of the array does not matter: the first statement of
`processPrint` cuts it at index 0. -/
theorem processPrintLines_zero (stale m : List Char) :
    processPrintLines { printConcatBuffer := stale, length := 0 } m
      = processPrintLines { printConcatBuffer := [], length := 0 } m := by
  simp [processPrintLines]

/-- A call that stays below the capacity: the fragment is appended, and the buffer is
forwarded without its last byte exactly when that byte is a line feed. -/
theorem processPrintLines_short (B m : List Char) (h : B.length + m.length < 2048) :
    processPrintLines { printConcatBuffer := B, length := B.length } m
      = if (B ++ m).getLast? = some '\n' then
          ({ printConcatBuffer := (B ++ m).dropLast, length := 0 }, [(B ++ m).dropLast])
        else
          ({ printConcatBuffer := B ++ m, length := (B ++ m).length }, []) := by
  rw [processPrintLines, overflowLoop_of_lt _ (by simpa using h)]
  simp only [List.take_length, ← List.length_append, flush_test, ← List.dropLast_eq_take,
    List.nil_append]

/-- Fragments that do not end a line only accumulate. -/
theorem processFragments_accumulate (fs : List (List Char)) (B : List Char)
    (hB : B.getLast? ≠ some '\n') (hfs : ∀ f ∈ fs, f.getLast? ≠ some '\n')
    (hlen : B.length + fs.flatten.length < 2048) :
    processFragments { printConcatBuffer := B, length := B.length } fs
      = ({ printConcatBuffer := B ++ fs.flatten, length := (B ++ fs.flatten).length },
          fs.map (fun _ => [])) := by
  induction fs generalizing B with
  | nil => simp [processFragments]
  | cons f rest ih =>
    have hf : f.getLast? ≠ some '\n' := hfs f (List.mem_cons_self _ _)
    have hrest : ∀ g ∈ rest, g.getLast? ≠ some '\n' :=
      fun g hg => hfs g (List.mem_cons_of_mem _ hg)
    rw [List.flatten_cons, List.length_append] at hlen
    have hlast : (B ++ f).getLast? ≠ some '\n' := by
      rw [List.getLast?_append]
      cases hfl : f.getLast? with
      | none => simpa using hB
      | some c =>
        rw [hfl] at hf
        simpa using hf
    have hcall := processPrintLines_short B f (by omega)
    rw [if_neg hlast] at hcall
    have hrec := ih (B ++ f) hlast hrest (by rw [List.length_append]; omega)
    simp only [processFragments, hcall, hrec, List.map_cons, List.flatten_cons,
      List.append_assoc]

theorem processFragments_zero (stale : List Char) (f : List Char) (rest : List (List Char)) :
    processFragments { printConcatBuffer := stale, length := 0 } (f :: rest)
      = processFragments { printConcatBuffer := [], length := 0 } (f :: rest) := by
  simp only [processFragments, processPrintLines_zero stale f]

/-- C13 (counterexample): a line feed in the middle of a fragment does not end a line;
the fragment `"a\nb\n"` is forwarded as the single text `"a\nb"`. -/
theorem inner_line_feed_does_not_split :
    processPrintLines { printConcatBuffer := [], length := 0 } ['a', '\n', 'b', '\n']
      = ({ printConcatBuffer := ['a', '\n', 'b'], length := 0 }, [['a', '\n', 'b']]) := by
  have h := processPrintLines_short [] ['a', '\n', 'b', '\n'] (by decide)
  simpa using h

/-- C13 (amended): for fragments `f1 .. fk` given to `processPrint` one after the other,
starting with an empty assembly buffer, with total length below 2048 bytes and only
`fk` ending with a line feed: the calls for `f1 .. f(k-1)` forward nothing, the call
for `fk` forwards exactly one text, `f1 ++ ... ++ fk` without the final line feed
(line feeds inside the fragments stay in that text), and the assembly length is 0
afterwards, so that the next call starts from an empty buffer. -/
theorem fragments_assemble_one_line (stale : List Char) (fs : List (List Char))
    (g : List Char) (hfs : ∀ f ∈ fs, f.getLast? ≠ some '\n')
    (hlen : (fs.flatten ++ (g ++ ['\n'])).length < 2048) :
    (processFragments { printConcatBuffer := stale, length := 0 } fs).2
        = fs.map (fun _ => [])
    ∧ processPrintLines (processFragments { printConcatBuffer := stale, length := 0 } fs).1
          (g ++ ['\n'])
        = ({ printConcatBuffer := fs.flatten ++ g, length := 0 }, [fs.flatten ++ g])
    ∧ ∀ m, processPrintLines { printConcatBuffer := fs.flatten ++ g, length := 0 } m
        = processPrintLines { printConcatBuffer := [], length := 0 } m := by
  simp only [List.length_append, List.length_singleton] at hlen
  have hfinal : ∀ B : List Char, B.length + (g.length + 1) < 2048 →
      processPrintLines { printConcatBuffer := B, length := B.length } (g ++ ['\n'])
        = ({ printConcatBuffer := B ++ g, length := 0 }, [B ++ g]) := by
    intro B hB
    rw [processPrintLines_short B (g ++ ['\n'])
      (by simp only [List.length_append, List.length_singleton]; omega)]
    simp [← List.append_assoc, List.dropLast_append_of_ne_nil]
  refine ⟨?_, ?_, fun m => processPrintLines_zero _ m⟩
  · cases fs with
    | nil => rfl
    | cons f rest =>
      rw [processFragments_zero]
      have := processFragments_accumulate (f :: rest) [] (by simp) hfs (by
        simp only [List.length_nil]; omega)
      rw [show ({ printConcatBuffer := [], length := 0 } : PrintBuffer)
        = { printConcatBuffer := [], length := ([] : List Char).length } from rfl, this]
  · cases fs with
    | nil =>
      simp only [processFragments, List.flatten_nil, List.nil_append]
      rw [processPrintLines_zero]
      have := hfinal [] (by simp only [List.length_nil]; omega)
      simpa using this
    | cons f rest =>
      rw [processFragments_zero]
      have := processFragments_accumulate (f :: rest) [] (by simp) hfs (by
        simp only [List.length_nil]; omega)
      rw [show ({ printConcatBuffer := [], length := 0 } : PrintBuffer)
        = { printConcatBuffer := [], length := ([] : List Char).length } from rfl, this]
      simp only [List.nil_append]
      exact hfinal _ (by omega)

theorem fragments_assemble_one_line_witness :
    (processFragments { printConcatBuffer := [], length := 0 } [['p', 'r'], ['i', 'n']]).2
        = [['p', 'r'], ['i', 'n']].map (fun _ => [])
    ∧ processPrintLines
          (processFragments { printConcatBuffer := [], length := 0 } [['p', 'r'], ['i', 'n']]).1
          (['t'] ++ ['\n'])
        = ({ printConcatBuffer := [['p', 'r'], ['i', 'n']].flatten ++ ['t'], length := 0 },
            [[['p', 'r'], ['i', 'n']].flatten ++ ['t']])
    ∧ ∀ m, processPrintLines
          { printConcatBuffer := [['p', 'r'], ['i', 'n']].flatten ++ ['t'], length := 0 } m
        = processPrintLines { printConcatBuffer := [], length := 0 } m :=
  fragments_assemble_one_line [] [['p', 'r'], ['i', 'n']] ['t'] (by decide) (by decide)

/-! ### Overlong text in processPrint -/

/-- C20: `clearWeakReferences (identity)` marks every handle registered for the identity
as dead and removes the bucket of the identity, leaving the buckets of the other
identities and the flags of the handles outside the bucket untouched; a handle just
registered for the identity is dead afterwards; for an unknown identity the call
changes nothing. -/
theorem clearWeakReferences_invalidates (reg : WeakReferenceRegistry) (identity : Ptr) :
    (∀ refs, reg.pdWeakReferences identity = some refs →
      (∀ ref ∈ refs, (clearWeakReferences identity reg).alive ref = false)
      ∧ (clearWeakReferences identity reg).pdWeakReferences identity = none
      ∧ (∀ other, other ≠ identity →
          (clearWeakReferences identity reg).pdWeakReferences other
            = reg.pdWeakReferences other)
      ∧ (∀ ref, ref ∉ refs → (clearWeakReferences identity reg).alive ref = reg.alive ref))
    ∧ (∀ ref, (clearWeakReferences identity (registerWeakReference identity ref reg)).alive ref
        = false
      ∧ (clearWeakReferences identity
          (registerWeakReference identity ref reg)).pdWeakReferences identity = none)
    ∧ (reg.pdWeakReferences identity = none → clearWeakReferences identity reg = reg) := by
  refine ⟨?_, ?_, ?_⟩
  · intro refs h
    simp only [clearWeakReferences, h]
    refine ⟨?_, by simp, ?_, ?_⟩
    · intro ref href; simp [href]
    · intro other hne; simp [hne]
    · intro ref href; simp [href]
  · intro ref
    simp [clearWeakReferences, registerWeakReference]
  · intro h
    simp [clearWeakReferences, h]

theorem clearWeakReferences_invalidates_witness :
    (registerWeakReference 2 20 (registerWeakReference 1 11
        (registerWeakReference 1 10 WeakReferenceRegistry.empty))).pdWeakReferences 1
      = some [10, 11]
    ∧ (∀ ref ∈ [10, 11],
        (clearWeakReferences 1 (registerWeakReference 2 20 (registerWeakReference 1 11
          (registerWeakReference 1 10 WeakReferenceRegistry.empty)))).alive ref = false)
    ∧ (clearWeakReferences 1 (registerWeakReference 2 20 (registerWeakReference 1 11
          (registerWeakReference 1 10 WeakReferenceRegistry.empty)))).pdWeakReferences 2
      = some [20]
    ∧ (clearWeakReferences 1 (registerWeakReference 2 20 (registerWeakReference 1 11
          (registerWeakReference 1 10 WeakReferenceRegistry.empty)))).alive 20 = true
    ∧ WeakReferenceRegistry.empty.pdWeakReferences 5 = none
    ∧ clearWeakReferences 5 WeakReferenceRegistry.empty = WeakReferenceRegistry.empty :=
  ⟨by decide,
    ((clearWeakReferences_invalidates (registerWeakReference 2 20 (registerWeakReference 1 11
        (registerWeakReference 1 10 WeakReferenceRegistry.empty))) 1).1 [10, 11]
      (by decide)).1,
    by decide, by decide, rfl,
    (clearWeakReferences_invalidates WeakReferenceRegistry.empty 5).2.2 rfl⟩

/-! ### What the ingestion strips from a line -/

/-- C25 (counterexample): `"verbose(10): hi"` becomes a record with the text `" hi"`
(the separator stays), and `"errors found"` becomes a record with the text `"found"`
(two characters after the token `"error"` are lost). -/
theorem marker_strip_is_by_fixed_length :
    forwardMessage 0 "verbose(10): hi" ConsoleHandler.empty
      = logMessage 0 " hi" ConsoleHandler.empty
    ∧ (" hi" : String) ≠ "hi"
    ∧ forwardMessage 0 "errors found" ConsoleHandler.empty
      = logError 0 "found" ConsoleHandler.empty
    ∧ ("found" : String) ≠ "s found" := by
  decide

/-- C25 (amended): for every line `"error: X"` and every line `"verbose(N): X"` with a
single decimal digit `N`, the queued record has the text `X`: exactly the marker and
the space after it are removed and no character of `X`. The marker is removed by
count: a line that begins with `"error"` loses its first 7 characters, another line
that begins with `"verbose("` its first 12. -/
theorem marker_stripped (object : Ptr) (X : String) (s : ConsoleHandler) :
    (forwardMessage object ("error: " ++ X) s).pendingMessages
        = s.pendingMessages ++ [{ object := object, message := X, type := true }]
    ∧ (∀ N : Nat, N ≤ 9 →
        (forwardMessage object
            ("verbose(" ++ String.singleton (Nat.digitChar N) ++ "): " ++ X) s).pendingMessages
          = s.pendingMessages ++ [{ object := object, message := X, type := decide (N ≤ 1) }])
    ∧ (∀ line : String, startsWith line "error" = true →
        forwardMessage object line s = logError object (substring line 7) s)
    ∧ (∀ line : String, startsWith line "error" = false → startsWith line "verbose(" = true →
        (forwardMessage object line s).pendingMessages.map (fun item => item.message)
          = s.pendingMessages.map (fun item => item.message) ++ [substring line 12]) := by
  refine ⟨?_, ?_, ?_, ?_⟩
  · simp [forwardMessage, startsWith, substring, logError, intToBool]
  · intro N h9
    interval_cases N <;>
      simp [forwardMessage, startsWith, substring, Nat.digitChar, logError, logMessage,
        intToBool]
  · intro line h
    simp [forwardMessage, h]
  · intro line he hv
    by_cases h01 : (startsWith line "verbose(0):" || startsWith line "verbose(1):") = true
    · simp [forwardMessage, he, h01, logError]
    · simp [forwardMessage, he, hv, h01, logMessage]

theorem marker_stripped_witness :
    (forwardMessage 3
        ("verbose(" ++ String.singleton (Nat.digitChar 4) ++ "): " ++ "tick")
        ConsoleHandler.empty).pendingMessages
      = ConsoleHandler.empty.pendingMessages
        ++ [{ object := 3, message := "tick", type := decide (4 ≤ 1) }]
    ∧ startsWith "error 5" "error" = true
    ∧ forwardMessage 3 "error 5" ConsoleHandler.empty
      = logError 3 (substring "error 5" 7) ConsoleHandler.empty :=
  ⟨(marker_stripped 3 "tick" ConsoleHandler.empty).2.1 4 (by decide), by decide,
    (marker_stripped 3 "tick" ConsoleHandler.empty).2.2.1 "error 5" (by decide)⟩

/-! ### Conservation of records by clear and restore -/

/-- C26: `clear()` and `restore()` each leave the concatenation `history ++ live`
unchanged, and so does every sequence of `clear()` and `restore()` calls. -/
theorem clear_restore_conserve (w : String → Int) (s : ConsoleHandler) :
    (clear s).consoleHistory ++ (clear s).consoleMessages
        = s.consoleHistory ++ s.consoleMessages
    ∧ (restore s).consoleHistory ++ (restore s).consoleMessages
        = s.consoleHistory ++ s.consoleMessages
    ∧ (∀ cs : List Call, (∀ c ∈ cs, c = Call.clear ∨ c = Call.restore) →
        (run w cs s).consoleHistory ++ (run w cs s).consoleMessages
          = s.consoleHistory ++ s.consoleMessages) := by
  refine ⟨by simp [clear], by simp [restore], ?_⟩
  intro cs
  induction cs generalizing s with
  | nil => intro _; rfl
  | cons c rest ih =>
    intro h
    have hrest : ∀ c ∈ rest, c = Call.clear ∨ c = Call.restore :=
      fun c hc => h c (List.mem_cons_of_mem _ hc)
    have hstep := ih (step w s c) hrest
    simp only [run, List.foldl_cons] at hstep ⊢
    rw [hstep]
    rcases h c (List.mem_cons_self _ _) with hc | hc <;> subst hc
    · simp [step, clear]
    · simp [step, restore]

theorem clear_restore_conserve_witness :
    (∀ c ∈ [Call.clear, Call.clear, Call.restore, Call.clear],
        c = Call.clear ∨ c = Call.restore)
    ∧ (run charWidth [Call.clear, Call.clear, Call.restore, Call.clear]
          withHistory).consoleHistory
        ++ (run charWidth [Call.clear, Call.clear, Call.restore, Call.clear]
          withHistory).consoleMessages
      = withHistory.consoleHistory ++ withHistory.consoleMessages :=
  ⟨by decide, (clear_restore_conserve charWidth withHistory).2.2 _ (by decide)⟩

/-! ### Frame of a coalescing step -/

theorem fillClearRestore_state :
    (run charWidth fillClearRestore ConsoleHandler.empty).consoleMessages
      = (List.range 800).map (fun i => newRecord charWidth ⟨i, "x", false⟩)
        ++ [newRecord charWidth ⟨0, "y", false⟩]
    ∧ (run charWidth fillClearRestore ConsoleHandler.empty).pendingMessages = [] := by
  have hfeed : ∀ c ∈ (List.range 800).map (fun i => Call.submit Severity.info i "x"),
      c.isFeed = true := by
    intro c hc
    obtain ⟨i, _, hi⟩ := List.mem_map.mp hc
    subst hi; rfl
  have hsplit : fillClearRestore
      = ((List.range 800).map (fun i => Call.submit Severity.info i "x")
          ++ [Call.timerCallback])
        ++ [Call.clear, Call.submit Severity.info 0 "y", Call.timerCallback, Call.restore] := by
    simp [fillClearRestore]
  have hlive := run_then_fire charWidth _ hfeed
  have hhist := run_history_of_feed charWidth
    ((List.range 800).map (fun i => Call.submit Severity.info i "x") ++ [Call.timerCallback])
    (by
      intro c hc
      rcases List.mem_append.mp hc with h | h
      · exact hfeed c h
      · simp at h; subst h; rfl) ConsoleHandler.empty
  have hpend : (run charWidth
      ((List.range 800).map (fun i => Call.submit Severity.info i "x") ++ [Call.timerCallback])
      ConsoleHandler.empty).pendingMessages = [] := by
    rw [run_append]; rfl
  constructor
  · rw [hsplit, run_append, clear_log_fire_restore charWidth _ hpend, hhist, hlive,
      submitted_map_info, foldl_fifo]
    · simp [ConsoleHandler.empty]
    · rw [List.chain'_map, List.chain'_range_succ]
      intro m _
      simp
  · rw [hsplit, run_append]
    simp [run, step, restore, timerCallback]

theorem processItem_same_above_cap (w : String → Int) (init : List ConsoleItem)
    (r : ConsoleItem) (x : PendingItem) (hsame : sameAsLast x r = true)
    (hlen : (init ++ [r]).length > 800) :
    processItem w (init ++ [r]) x
      = (init ++ [{ r with numMessages := wrapInt (r.numMessages + 1) }]).tail := by
  have hlen2 : init.length + 1 > 800 := by simpa using hlen
  simp [processItem, appendOrCount_snoc, hsame, hlen2]

/-- C28 (counterexample): in the state reached by `fillClearRestore` the live sequence
holds 801 records and the last one is `(0, "y")`; processing one more `(0, "y")` raises
its repeat count and evicts the oldest record, so that 800 records remain. And a record
with the repeat count 2147483647 gets the repeat count `-2147483648` by a coalescing
step, not 2147483648. -/
theorem coalescing_step_evicts_above_cap :
    processItem charWidth [(⟨0, "a", 0, 9, 2147483647⟩ : ConsoleItem)] ⟨0, "a", false⟩
      = [(⟨0, "a", 0, 9, -2147483648⟩ : ConsoleItem)]
    ∧ (run charWidth fillClearRestore ConsoleHandler.empty).consoleMessages.length = 801
    ∧ (run charWidth fillClearRestore ConsoleHandler.empty).consoleMessages.getLast?
        = some (⟨0, "y", 0, 9, 1⟩ : ConsoleItem)
    ∧ (timerCallback charWidth
        (logMessage 0 "y"
          (run charWidth fillClearRestore ConsoleHandler.empty))).consoleMessages.length = 800
    ∧ (timerCallback charWidth
        (logMessage 0 "y"
          (run charWidth fillClearRestore ConsoleHandler.empty))).consoleMessages.getLast?
        = some (⟨0, "y", 0, 9, 2⟩ : ConsoleItem) := by
  obtain ⟨hlive, hpend⟩ := fillClearRestore_state
  have hnr : newRecord charWidth ⟨0, "y", false⟩ = (⟨0, "y", 0, 9, 1⟩ : ConsoleItem) := by
    decide
  rw [hnr] at hlive
  have hr2 : ({ (⟨0, "y", 0, 9, 1⟩ : ConsoleItem) with
      numMessages := wrapInt ((⟨0, "y", 0, 9, 1⟩ : ConsoleItem).numMessages + 1) }
        : ConsoleItem)
      = ⟨0, "y", 0, 9, 2⟩ := by decide
  have hlen801 : ((List.range 800).map (fun i => newRecord charWidth ⟨i, "x", false⟩)
      ++ [(⟨0, "y", 0, 9, 1⟩ : ConsoleItem)]).length = 801 := by
    rw [List.length_append, List.length_map, List.length_range]; rfl
  have hafter : (timerCallback charWidth
      (logMessage 0 "y" (run charWidth fillClearRestore ConsoleHandler.empty))).consoleMessages
      = ((List.range 800).map (fun i => newRecord charWidth ⟨i, "x", false⟩)
          ++ [(⟨0, "y", 0, 9, 2⟩ : ConsoleItem)]).tail := by
    rw [timerCallback_consoleMessages]
    simp only [drained, logMessage, hpend, hlive, List.nil_append, List.foldl_cons,
      List.foldl_nil]
    rw [processItem_same_above_cap charWidth _ _ _ (by decide) (by rw [hlen801]; decide)]
    exact congrArg
      (fun t => ((List.range 800).map (fun i => newRecord charWidth ⟨i, "x", false⟩)
        ++ [t]).tail) hr2
  refine ⟨by decide, ?_, ?_, ?_, ?_⟩
  · rw [hlive, hlen801]
  · rw [hlive, List.getLast?_concat]
  · rw [hafter, List.length_tail, List.length_append, List.length_map, List.length_range]; rfl
  · rw [hafter]
    have h800 : List.range 800 = 0 :: List.range' 1 799 := by
      rw [List.range_eq_range']; rfl
    rw [h800]
    simp only [List.map_cons, List.cons_append, List.tail_cons]
    rw [List.getLast?_concat]

/-- C28 (amended): when the live sequence holds at most 800 records, a processed
message matches the most recent record and the repeat count of that record is below
2147483647, the only change to the deque is that this record's repeat count increases
by 1: its origin, text, type and cached length, every other record and the number of
records are unchanged (nothing is evicted, also at 800 records), and a timer fire that
processes just this message leaves the history as it was. -/
theorem coalescing_step_frame (w : String → Int) (init : List ConsoleItem) (r : ConsoleItem)
    (x : PendingItem) (hsame : sameAsLast x r = true) (hlen : (init ++ [r]).length ≤ 800)
    (hlo : -2147483648 ≤ r.numMessages) (hhi : r.numMessages < 2147483647) :
    processItem w (init ++ [r]) x = init ++ [{ r with numMessages := r.numMessages + 1 }]
    ∧ (processItem w (init ++ [r]) x).length = (init ++ [r]).length
    ∧ ∀ s : ConsoleHandler, s.consoleMessages = init ++ [r] → s.pendingMessages = [x] →
        (timerCallback w s).consoleMessages
          = init ++ [{ r with numMessages := r.numMessages + 1 }]
        ∧ (timerCallback w s).consoleHistory = s.consoleHistory := by
  have hw : wrapInt (r.numMessages + 1) = r.numMessages + 1 :=
    wrapInt_of_range _ (by omega) (by omega)
  have hstep : processItem w (init ++ [r]) x
      = init ++ [{ r with numMessages := r.numMessages + 1 }] := by
    have hlen2 : ¬ (init.length + 1 > 800) := by simpa using hlen
    simp [processItem, appendOrCount_snoc, hsame, hlen2, hw]
  refine ⟨hstep, by rw [hstep]; simp, ?_⟩
  intro s hs hp
  constructor
  · rw [timerCallback_consoleMessages]
    simp [drained, hs, hp, hstep]
  · simp [timerCallback]

theorem coalescing_step_frame_witness :
    sameAsLast ⟨0, "a", false⟩ ⟨0, "a", 0, 9, 4⟩ = true
    ∧ (([⟨7, "b", 1, 9, 1⟩] : List ConsoleItem)
        ++ ([⟨0, "a", 0, 9, 4⟩] : List ConsoleItem)).length ≤ 800
    ∧ (⟨0, "a", 0, 9, 4⟩ : ConsoleItem).numMessages < 2147483647
    ∧ processItem charWidth
        (([⟨7, "b", 1, 9, 1⟩] : List ConsoleItem) ++ ([⟨0, "a", 0, 9, 4⟩] : List ConsoleItem))
        ⟨0, "a", false⟩
      = ([⟨7, "b", 1, 9, 1⟩] : List ConsoleItem)
        ++ [{ (⟨0, "a", 0, 9, 4⟩ : ConsoleItem) with
              numMessages := (⟨0, "a", 0, 9, 4⟩ : ConsoleItem).numMessages + 1 }] :=
  ⟨by decide, by decide, by decide,
    (coalescing_step_frame charWidth [⟨7, "b", 1, 9, 1⟩] ⟨0, "a", 0, 9, 4⟩ ⟨0, "a", false⟩
      (by decide) (by decide) (by decide) (by decide)).1⟩

/-! ### Coalescing loses no submission -/

theorem sameAsLast_iff_key (x : PendingItem) (r : ConsoleItem) :
    sameAsLast x r = true ↔ storedKey x = recordKey r := by
  simp [sameAsLast, storedKey, recordKey, and_assoc]

theorem expand_append (A B : List ConsoleItem) : expand (A ++ B) = expand A ++ expand B := by
  simp [expand]

theorem expand_newRecord (w : String → Int) (x : PendingItem) :
    expand [newRecord w x] = [storedKey x] := by
  simp [expand, repeats, newRecord, storedKey]

theorem repeats_succ (r : ConsoleItem) (hr : 1 ≤ r.numMessages) :
    repeats { r with numMessages := r.numMessages + 1 } = repeats r ++ [recordKey r] := by
  have h : (r.numMessages + 1).toNat = r.numMessages.toNat + 1 := by omega
  simp only [repeats, h, recordKey]
  exact List.replicate_succ' _ _

/-- One loop iteration without eviction on a deque in which every repeat count is at
least 1 and no two adjacent records have the same `(object, message, type)`: the
expansion grows by the key of the item and the deque keeps both properties. -/
theorem coalesced_step (w : String → Int) (D : List ConsoleItem) (x : PendingItem)
    (hpos : ∀ r ∈ D, 1 ≤ r.numMessages)
    (hadj : List.Chain' (fun a b => recordKey a ≠ recordKey b) D)
    (hroom : D.length + numEmplaced w [x] D ≤ 800)
    (hmax : ∀ r ∈ D, r.numMessages < 2147483647) :
    expand (processItem w D x) = expand D ++ [storedKey x]
    ∧ ((processItem w D x).map fun r => r.numMessages).sum
        = (D.map fun r => r.numMessages).sum + 1
    ∧ (∀ r ∈ processItem w D x, 1 ≤ r.numMessages)
    ∧ List.Chain' (fun a b => recordKey a ≠ recordKey b) (processItem w D x)
    ∧ (processItem w D x).length = D.length + numEmplaced w [x] D := by
  rcases List.eq_nil_or_concat D with hnil | ⟨init, r, hD⟩
  · subst hnil
    have h1 : processItem w [] x = [newRecord w x] := by
      simp [processItem, appendOrCount_nil]
    rw [h1]
    refine ⟨by simp [expand, repeats, newRecord, storedKey], by simp [newRecord], ?_, by simp,
      by simp [numEmplaced]⟩
    intro r hr
    simp at hr
    subst hr
    simp [newRecord]
  · rw [List.concat_eq_append] at hD
    subst hD
    have hr1 : 1 ≤ r.numMessages := hpos r (by simp)
    have hinit : ∀ q ∈ init, 1 ≤ q.numMessages := fun q hq => hpos q (by simp [hq])
    obtain ⟨hcinit, -, hlink⟩ := List.chain'_append.mp hadj
    cases hsame : sameAsLast x r with
    | true =>
      have hw : wrapInt (r.numMessages + 1) = r.numMessages + 1 :=
        wrapInt_of_range _ (by omega) (by have := hmax r (by simp); omega)
      have hproc : processItem w (init ++ [r]) x
          = init ++ [{ r with numMessages := r.numMessages + 1 }] := by
        have hlen2 : ¬ (init.length + 1 > 800) := by
          have := hroom
          simp only [List.length_append, List.length_singleton] at this
          omega
        simp [processItem, appendOrCount_snoc, hsame, hlen2, hw]
      have hkey := (sameAsLast_iff_key x r).mp hsame
      rw [hproc]
      refine ⟨?_, ?_, ?_, ?_, ?_⟩
      · rw [expand_append, expand_append]
        simp only [expand, List.map_cons, List.map_nil, List.flatten_cons, List.flatten_nil,
          List.append_nil]
        rw [repeats_succ r hr1, hkey, List.append_assoc]
      · simp; ring
      · intro q hq
        rcases List.mem_append.mp hq with h | h
        · exact hinit q h
        · simp at h; subst h; simp; omega
      · refine List.chain'_append.mpr ⟨hcinit, by simp, ?_⟩
        intro a ha b hb
        simp at hb
        subst hb
        have := hlink a ha r (by simp)
        simpa [recordKey] using this
      · simp [numEmplaced, List.getLast?_append, hsame]
    | false =>
      have hne : (numEmplaced w [x] (init ++ [r])) = 1 := by
        simp [numEmplaced, List.getLast?_append, hsame]
      have hproc : processItem w (init ++ [r]) x = init ++ [r] ++ [newRecord w x] := by
        have hlen2 : ¬ (init.length + 1 + 1 > 800) := by
          have := hroom
          rw [hne] at this
          simp only [List.length_append, List.length_singleton] at this
          omega
        simp [processItem, appendOrCount_snoc, hsame, hlen2]
      have hkey : storedKey x ≠ recordKey r := by
        intro h
        have := (sameAsLast_iff_key x r).mpr h
        rw [hsame] at this
        cases this
      rw [hproc]
      refine ⟨?_, ?_, ?_, ?_, ?_⟩
      · rw [expand_append (init ++ [r]), expand_newRecord]
      · simp [newRecord]; ring
      · intro q hq
        rcases List.mem_append.mp hq with h | h
        · exact hpos q h
        · simp at h; subst h; simp [newRecord]
      · refine List.chain'_append.mpr ⟨hadj, by simp, ?_⟩
        intro a ha b hb
        simp at hb
        subst hb
        have har : a = r := by
          have : r = a := by simpa [List.getLast?_append] using ha
          exact this.symm
        subst har
        intro h
        exact hkey (by simpa [recordKey, newRecord, storedKey] using h.symm)
      · rw [hne]; simp

theorem numEmplaced_cons (w : String → Int) (x : PendingItem) (rest : List PendingItem)
    (D : List ConsoleItem) :
    numEmplaced w (x :: rest) D = numEmplaced w [x] D + numEmplaced w rest (processItem w D x) := by
  simp [numEmplaced]

theorem count_le_sum (D : List ConsoleItem) (hpos : ∀ r ∈ D, 1 ≤ r.numMessages) :
    ∀ r ∈ D, r.numMessages ≤ (D.map fun r => r.numMessages).sum := by
  induction D with
  | nil => intro r hr; simp at hr
  | cons a rest ih =>
    intro r hr
    have ha : 1 ≤ a.numMessages := hpos a (List.mem_cons_self _ _)
    have hrest : ∀ q ∈ rest, 1 ≤ q.numMessages :=
      fun q hq => hpos q (List.mem_cons_of_mem _ hq)
    have hsum : 0 ≤ (rest.map fun r => r.numMessages).sum := by
      rcases rest with _ | ⟨b, t⟩
      · simp
      · have := ih hrest b (List.mem_cons_self _ _)
        have := hrest b (List.mem_cons_self _ _)
        omega
    simp only [List.map_cons, List.sum_cons]
    rcases List.mem_cons.mp hr with h | h
    · subst h; omega
    · have := ih hrest r h
      omega

theorem coalesced_foldl (w : String → Int) (p : List PendingItem) (D : List ConsoleItem)
    (hpos : ∀ r ∈ D, 1 ≤ r.numMessages)
    (hadj : List.Chain' (fun a b => recordKey a ≠ recordKey b) D)
    (hroom : D.length + numEmplaced w p D ≤ 800)
    (hsum : (D.map fun r => r.numMessages).sum + (p.length : Int) ≤ 2147483647) :
    expand (p.foldl (processItem w) D) = expand D ++ p.map storedKey
    ∧ ((p.foldl (processItem w) D).map fun r => r.numMessages).sum
        = (D.map fun r => r.numMessages).sum + (p.length : Int)
    ∧ (∀ r ∈ p.foldl (processItem w) D, 1 ≤ r.numMessages)
    ∧ List.Chain' (fun a b => recordKey a ≠ recordKey b) (p.foldl (processItem w) D) := by
  induction p generalizing D with
  | nil => exact ⟨by simp, by simp, hpos, hadj⟩
  | cons x rest ih =>
    rw [numEmplaced_cons] at hroom
    have hmax : ∀ r ∈ D, r.numMessages < 2147483647 := by
      intro r hr
      have := count_le_sum D hpos r hr
      simp only [List.length_cons] at hsum
      push_cast at hsum
      omega
    obtain ⟨h1, h2, h3, h4, h5⟩ := coalesced_step w D x hpos hadj (by omega) hmax
    obtain ⟨g1, g2, g3, g4⟩ := ih (processItem w D x) h3 h4 (by rw [h5]; omega) (by
      rw [h2]
      simp only [List.length_cons] at hsum
      push_cast at hsum
      omega)
    refine ⟨?_, ?_, g3, g4⟩
    · rw [List.foldl_cons, g1, h1]; simp
    · rw [List.foldl_cons, g2, h2]; simp; ring

theorem numEmplaced_same (w : String → Int) (x : PendingItem) (p : List PendingItem)
    (hp : ∀ y ∈ p, y = x) (r : ConsoleItem) (hr : sameAsLast x r = true) :
    numEmplaced w p [r] = 0 := by
  induction p generalizing r with
  | nil => rfl
  | cons y rest ih =>
    have hy : y = x := hp y (List.mem_cons_self _ _)
    subst hy
    have hproc : processItem w [r] y = [{ r with numMessages := wrapInt (r.numMessages + 1) }] := by
      have h := appendOrCount_snoc w [] r y
      simp only [List.nil_append] at h
      simp [processItem, h, hr]
    rw [numEmplaced_cons, hproc,
      ih (fun z hz => hp z (List.mem_cons_of_mem _ hz)) _ (by simpa [sameAsLast] using hr)]
    simp [numEmplaced, hr]

theorem numEmplaced_run (w : String → Int) (x : PendingItem) (p : List PendingItem)
    (hp : ∀ y ∈ p, y = x) (hne : p ≠ []) : numEmplaced w p [] = 1 := by
  cases p with
  | nil => exact absurd rfl hne
  | cons y rest =>
    have hy : y = x := hp y (List.mem_cons_self _ _)
    subst hy
    have hproc : processItem w [] y = [newRecord w y] := by
      simp [processItem, appendOrCount_nil]
    rw [numEmplaced_cons, hproc,
      numEmplaced_same w y rest (fun z hz => hp z (List.mem_cons_of_mem _ hz)) _
        (by simp [sameAsLast_newRecord])]
    simp [numEmplaced]

/-- C27 (counterexample): 2147483648 identical messages create one record; its repeat
count is `-2147483648`, so the counts do not sum to the number of messages, the count
is below 1 and the record stands for no submission at all. -/
theorem long_run_loses_submissions :
    numEmplaced charWidth (List.replicate 2147483648 ⟨0, "a", false⟩) [] = 1
    ∧ (timerCallback charWidth
        { ConsoleHandler.empty with
          pendingMessages := List.replicate 2147483648 ⟨0, "a", false⟩ }).consoleMessages
      = [(⟨0, "a", 0, 9, -2147483648⟩ : ConsoleItem)]
    ∧ expand [(⟨0, "a", 0, 9, -2147483648⟩ : ConsoleItem)] = [] := by
  refine ⟨numEmplaced_run charWidth ⟨0, "a", false⟩ _
    (fun y hy => List.eq_of_mem_replicate hy) (replicate_ne_nil_of_pos _ (by decide) _), ?_,
    by decide⟩
  have e : (timerCallback charWidth
      { ConsoleHandler.empty with
        pendingMessages := List.replicate 2147483648 ⟨0, "a", false⟩ }).consoleMessages
      = (List.replicate 2147483648 (⟨0, "a", false⟩ : PendingItem)).foldl
          (processItem charWidth) [] := by
    rw [timerCallback_consoleMessages]; rfl
  have hrec : ({ newRecord charWidth ⟨0, "a", false⟩ with
      numMessages := wrapInt ((2147483648 : Nat) : Int) } : ConsoleItem)
      = ⟨0, "a", 0, 9, -2147483648⟩ := by decide
  rw [e, foldl_same_nil charWidth ⟨0, "a", false⟩ _
    (fun y hy => List.eq_of_mem_replicate hy) (replicate_ne_nil_of_pos _ (by decide) _),
    List.length_replicate, hrec]

/-- C27 (amended): starting from an empty console, after processing any message sequence
`m1 .. mk` with `k ≤ 2147483647` during which at most 800 records are created (so
nothing is evicted), replacing each live record by `numMessages` copies of its
`(object, message, type)` yields exactly the stored keys of `m1 .. mk` in order; the
repeat counts sum to `k`, every repeat count is at least 1, and no two adjacent records
have the same `(object, message, type)`. -/
theorem coalescing_loses_nothing (w : String → Int) (msgs : List PendingItem)
    (hroom : numEmplaced w msgs [] ≤ 800) (hk : msgs.length ≤ 2147483647) :
    expand (timerCallback w
        { ConsoleHandler.empty with pendingMessages := msgs }).consoleMessages
      = msgs.map storedKey
    ∧ ((timerCallback w
        { ConsoleHandler.empty with pendingMessages := msgs }).consoleMessages.map
          fun r => r.numMessages).sum = (msgs.length : Int)
    ∧ (∀ r ∈ (timerCallback w
        { ConsoleHandler.empty with pendingMessages := msgs }).consoleMessages,
        1 ≤ r.numMessages)
    ∧ List.Chain' (fun a b => recordKey a ≠ recordKey b)
        (timerCallback w
          { ConsoleHandler.empty with pendingMessages := msgs }).consoleMessages := by
  have h := coalesced_foldl w msgs [] (by simp) (by simp) (by simpa using hroom)
    (by simp only [List.map_nil, List.sum_nil]; omega)
  have e : (timerCallback w
      { ConsoleHandler.empty with pendingMessages := msgs }).consoleMessages
      = msgs.foldl (processItem w) [] := by
    rw [timerCallback_consoleMessages]; rfl
  rw [e]
  simpa [expand] using h

theorem coalescing_loses_nothing_witness :
    numEmplaced charWidth [⟨0, "a", false⟩, ⟨0, "a", false⟩, ⟨0, "b", true⟩] [] ≤ 800
    ∧ [(⟨0, "a", false⟩ : PendingItem), ⟨0, "a", false⟩, ⟨0, "b", true⟩].length ≤ 2147483647
    ∧ expand (timerCallback charWidth
        { ConsoleHandler.empty with
          pendingMessages := [⟨0, "a", false⟩, ⟨0, "a", false⟩, ⟨0, "b", true⟩] }).consoleMessages
      = [⟨0, "a", false⟩, ⟨0, "a", false⟩, ⟨0, "b", true⟩].map storedKey :=
  ⟨by decide, by decide,
    (coalescing_loses_nothing charWidth [⟨0, "a", false⟩, ⟨0, "a", false⟩, ⟨0, "b", true⟩]
      (by decide) (by decide)).1⟩

/-! ### The overflow loop of processPrint drops no byte -/

end pd
